import Mathlib

/-!
Verification of the asset organizer (`tools/organize_assets.py`).

The script is embedded shallowly: file contents are byte lists, the manifest
is an insertion-ordered association list (modelling a Python dict), the
output tree is the list of relative paths that exist on disk, and the three
external libraries the script calls (`mimetypes`, PIL, `datetime`) are
supplied through an `Env` record of pure functions.  SHA-256 is implemented
concretely so that `compute_hash` is the real digest function.
-/

namespace AssetOrg

/-! ## String utilities (models of the Python string/pathlib operations) -/

/-- Model of `str.lower` on its ASCII fragment (the only case exercised by
the category tables, which are all ASCII). -/
def lowerChar (c : Char) : Char :=
  if 'A' ≤ c ∧ c ≤ 'Z' then Char.ofNat (c.toNat + 32) else c

/-- Lowercase a string, character by character. -/
def strLower (s : String) : String := ⟨s.data.map lowerChar⟩

/-- Does `pat` match the front of `s`?  (Model of `str.startswith`.) -/
def leadMatch : List Char → List Char → Bool
  | [], _ => true
  | _ :: _, [] => false
  | p :: ps, c :: cs => p == c && leadMatch ps cs

/-- Does `pat` occur as a contiguous substring of `s`?
(Model of Python's `pat in s`.) -/
def containsSub (pat : List Char) : List Char → Bool
  | [] => pat.isEmpty
  | c :: cs => leadMatch pat (c :: cs) || containsSub pat cs

/-- Model of `str.rfind('.')`: index of the last dot, if any. -/
def rfindDotAux : List Char → Nat → Option Nat → Option Nat
  | [], _, acc => acc
  | c :: cs, i, acc => rfindDotAux cs (i + 1) (if c == '.' then some i else acc)

/-- Index of the last `'.'` in a character list. -/
def rfindDot (cs : List Char) : Option Nat := rfindDotAux cs 0 none

/-- Model of `pathlib.PurePath.suffix`: the final extension including the
dot, and `""` when the last dot is at position 0, absent, or final. -/
def pySuffix (name : String) : String :=
  match rfindDot name.data with
  | none => ""
  | some i =>
      if 0 < i ∧ i < name.data.length - 1 then ⟨name.data.drop i⟩ else ""

/-- Model of `pathlib.PurePath.stem`: the name without its final suffix. -/
def pyStem (name : String) : String :=
  match rfindDot name.data with
  | none => name
  | some i =>
      if 0 < i ∧ i < name.data.length - 1 then ⟨name.data.take i⟩ else name

/-! ## Category tables and `get_category` -/

/-- `CATEGORY_MAPPINGS` from the script, in source order (a dict literal;
lookup is by key so order is irrelevant for `.get`). -/
def CATEGORY_MAPPINGS : List (String × String) :=
  [(".gif", "hero"),
   (".png", "images"), (".jpg", "images"), (".jpeg", "images"),
   (".webp", "images"),
   (".svg", "icons"), (".ico", "icons"),
   (".mp4", "video"), (".mov", "video"), (".avi", "video"),
   (".webm", "video"), (".mkv", "video"),
   (".mp3", "audio"), (".wav", "audio"), (".m4a", "audio"),
   (".ogg", "audio"),
   (".pdf", "documents"), (".txt", "documents"), (".md", "documents"),
   (".ttf", "fonts"), (".otf", "fonts"), (".woff", "fonts"),
   (".woff2", "fonts"),
   (".psd", "design"), (".ai", "design"), (".sketch", "design"),
   (".fig", "design")]

/-- `SPECIAL_FILES` from the script: name-pattern overrides, iterated in
dict-literal (insertion) order. -/
def SPECIAL_FILES : List (String × String) :=
  [("afromations_flag_pick.gif", "hero"),
   ("logo", "brand"),
   ("favicon", "brand")]

/-- `get_category`: special substring overrides first (first match wins),
then the extension table, else `"misc"`. -/
def get_category (name : String) : String :=
  let filename := strLower name
  let extension := strLower (pySuffix name)
  match SPECIAL_FILES.find? (fun p => containsSub p.1.data filename.data) with
  | some p => p.2
  | none =>
      ((CATEGORY_MAPPINGS.find? (fun p => p.1 == extension)).map Prod.snd).getD "misc"

/-! ## SHA-256 (the digest `hashlib.sha256` computes)

Bytes are `Nat`s below 256, 32-bit words are `Nat`s reduced mod `2^32`. -/

/-- Truncate to a 32-bit word. -/
def w32 (n : Nat) : Nat := n % 2 ^ 32

/-- Rotate a 32-bit word right by `n` positions. -/
def rotr (n x : Nat) : Nat := w32 ((x >>> n) ||| (x <<< (32 - n)))

/-- The 64 SHA-256 round constants of FIPS 180-4 (the fractional parts of
the cube roots of the first 64 primes), written in decimal. -/
def K256 : List Nat :=
  [1116352408, 1899447441, 3049323471, 3921009573, 961987163, 1508970993,
   2453635748, 2870763221, 3624381080, 310598401, 607225278, 1426881987,
   1925078388, 2162078206, 2614888103, 3248222580, 3835390401, 4022224774,
   264347078, 604807628, 770255983, 1249150122, 1555081692, 1996064986,
   2554220882, 2821834349, 2952996808, 3210313671, 3336571891, 3584528711,
   113926993, 338241895, 666307205, 773529912, 1294757372, 1396182291,
   1695183700, 1986661051, 2177026350, 2456956037, 2730485921, 2820302411,
   3259730800, 3345764771, 3516065817, 3600352804, 4094571909, 275423344,
   430227734, 506948616, 659060556, 883997877, 958139571, 1322822218,
   1537002063, 1747873779, 1955562222, 2024104815, 2227730452, 2361852424,
   2428436474, 2756734187, 3204031479, 3329325298]

/-- The eight SHA-256 initial hash words of FIPS 180-4, in decimal. -/
def H0 : List Nat :=
  [1779033703, 3144134277, 1013904242, 2773480762,
   1359893119, 2600822924, 528734635, 1541459225]

/-- Big-endian serialization of `n` into `k` bytes. -/
def beBytes : Nat → Nat → List Nat
  | 0, _ => []
  | k + 1, n => beBytes k (n / 256) ++ [n % 256]

/-- Combine big-endian bytes into one word. -/
def bytesToWord (bs : List Nat) : Nat := bs.foldl (fun a b => a * 256 + b) 0

/-- Split a list into pieces of `k` elements (last piece may be shorter);
`fuel` bounds the recursion and any `fuel ≥ l.length` gives the true
chunking when `k ≥ 1`. -/
def chunksGo (k : Nat) : Nat → List α → List (List α)
  | 0, _ => []
  | _, [] => []
  | fuel + 1, a :: l => (a :: l).take k :: chunksGo k fuel ((a :: l).drop k)

/-- Split a list into pieces of `k` elements. -/
def chunksOf (k : Nat) (l : List α) : List (List α) := chunksGo k l.length l

/-- SHA-256 padding: `0x80`, zeros to 56 mod 64, then the bit length as an
8-byte big-endian integer. -/
def padMsg (m : List Nat) : List Nat :=
  let L := m.length
  m ++ [0x80] ++ List.replicate ((64 - (L + 9) % 64) % 64) 0 ++ beBytes 8 (L * 8)

/-- The σ₀ message-schedule function. -/
def ssig0 (x : Nat) : Nat := rotr 7 x ^^^ rotr 18 x ^^^ (x >>> 3)

/-- The σ₁ message-schedule function. -/
def ssig1 (x : Nat) : Nat := rotr 17 x ^^^ rotr 19 x ^^^ (x >>> 10)

/-- The Σ₀ compression function. -/
def bsig0 (x : Nat) : Nat := rotr 2 x ^^^ rotr 13 x ^^^ rotr 22 x

/-- The Σ₁ compression function. -/
def bsig1 (x : Nat) : Nat := rotr 6 x ^^^ rotr 11 x ^^^ rotr 25 x

/-- The `Ch` bitwise choice function (with 32-bit complement). -/
def chF (x y z : Nat) : Nat := (x &&& y) ^^^ ((x ^^^ 0xffffffff) &&& z)

/-- The `Maj` bitwise majority function. -/
def majF (x y z : Nat) : Nat := (x &&& y) ^^^ (x &&& z) ^^^ (y &&& z)

/-- Extend the 16 block words to the 64-entry message schedule. -/
def extendW (ws : List Nat) : List Nat :=
  (List.range 48).foldl
    (fun acc i =>
      acc ++ [w32 (ssig1 (acc.getD (i + 14) 0) + acc.getD (i + 9) 0 +
                   ssig0 (acc.getD (i + 1) 0) + acc.getD i 0)])
    ws

/-- One SHA-256 compression round applied to the 8-word working state. -/
def round256 (ws : List Nat) (st : List Nat) (i : Nat) : List Nat :=
  match st with
  | [a, b, c, d, e, f, g, h] =>
      let t1 := w32 (h + bsig1 e + chF e f g + K256.getD i 0 + ws.getD i 0)
      let t2 := w32 (bsig0 a + majF a b c)
      [w32 (t1 + t2), a, b, c, w32 (d + t1), e, f, g]
  | st => st

/-- Compress one 64-byte block into the running hash state. -/
def compressBlock (h : List Nat) (block : List Nat) : List Nat :=
  let ws := extendW ((chunksOf 4 block).map bytesToWord)
  let st := (List.range 64).foldl (round256 ws) h
  List.zipWith (fun x y => w32 (x + y)) h st

/-- SHA-256 of a byte sequence, as 32 bytes. -/
def sha256 (msg : List Nat) : List Nat :=
  ((chunksOf 64 (padMsg msg)).foldl compressBlock H0).flatMap (beBytes 4)

/-- Lowercase hexadecimal digit characters. -/
def hexChar (n : Nat) : Char := "0123456789abcdef".data.getD n 'x'

/-- Lowercase hexadecimal rendering of a byte sequence. -/
def bytesToHex (bs : List Nat) : String :=
  ⟨bs.flatMap (fun b => [hexChar (b / 16), hexChar (b % 16)])⟩

/-- The lowercase hex SHA-256 digest of a byte sequence in one shot. -/
def sha256Hex (msg : List Nat) : String := bytesToHex (sha256 msg)

/-! ## `compute_hash`

`hashlib`'s incremental interface is modelled by its documented semantics:
an object accumulates the concatenation of all `update` arguments, and
`hexdigest` returns the lowercase hex SHA-256 digest of that accumulation. -/

/-- State of a `hashlib.sha256()` object: the bytes fed so far. -/
structure HashCtx where
  fed : List Nat

/-- Model of `sha256_hash.update(byte_block)`. -/
def ctxUpdate (c : HashCtx) (block : List Nat) : HashCtx := ⟨c.fed ++ block⟩

/-- Model of `sha256_hash.hexdigest()`. -/
def hexdigest (c : HashCtx) : String := sha256Hex c.fed

/-- A file as the organizer sees it: a name and its byte content. -/
structure FileEntry where
  name : String
  content : List Nat
deriving DecidableEq, Repr

/-- `compute_hash`: stream the file in 4096-byte chunks through the hash
object and return the hex digest. -/
def compute_hash (f : FileEntry) : String :=
  hexdigest ((chunksOf 4096 f.content).foldl ctxUpdate ⟨[]⟩)

/-! ## Decimal rendering (Python's `f"{counter}"`) -/

/-- The character for a decimal digit. -/
def digitChar (n : Nat) : Char := "0123456789".data.getD n 'x'

/-- Decimal digits of `n`, most significant first; any `fuel > n` is
enough. -/
def decDigitsGo : Nat → Nat → List Char
  | 0, _ => []
  | fuel + 1, n =>
      if n < 10 then [digitChar n]
      else decDigitsGo fuel (n / 10) ++ [digitChar (n % 10)]

/-- Standard decimal rendering of a natural number (no sign, no leading
zeros), as Python formats the collision counter. -/
def natToDec (n : Nat) : String := ⟨decDigitsGo (n + 1) n⟩

/-! ## The manifest and its environment -/

/-- One Asset Record, as built by `organize_asset`. -/
structure AssetInfo where
  original_name : String
  content_hash : String
  size_bytes : Nat
  mime_type : String
  category : String
  uploaded_at : String
  dimensions : Option (Nat × Nat)
deriving DecidableEq, Repr

/-- The manifest document: schema version, timestamp of last save, and the
insertion-ordered map of relative output path to Asset Record. -/
structure Manifest where
  version : String
  generated_at : Option String
  assets : List (String × AssetInfo)
deriving DecidableEq, Repr

/-- A fresh manifest, as `load_manifest` creates one when no file exists. -/
def emptyManifest : Manifest := ⟨"1.0", none, []⟩

/-- Python-dict assignment on an insertion-ordered association list:
replace in place if the key is present, else append. -/
def dictInsert (l : List (String × AssetInfo)) (k : String) (v : AssetInfo) :
    List (String × AssetInfo) :=
  if l.any (fun p => p.1 == k) then
    l.map (fun p => if p.1 == k then (k, v) else p)
  else l ++ [(k, v)]

/-- The external libraries the script calls, as pure functions:
`mimetypes.guess_type` on a path, PIL's raster decoding of a byte string
(`none` models both a decode failure and an absent PIL), and
`datetime.utcnow().isoformat() + "Z"`. -/
structure Env where
  guessMime : String → Option String
  decodeImage : List Nat → Option (Nat × Nat)
  now : String

/-- `get_mime_type`: the guessed type or the octet-stream fallback. -/
def get_mime_type (env : Env) (path : String) : String :=
  (env.guessMime path).getD "application/octet-stream"

/-- `get_image_dimensions`: PIL's width/height, or `None` on any failure. -/
def get_image_dimensions (env : Env) (content : List Nat) : Option (Nat × Nat) :=
  env.decodeImage content

/-! ## Collision resolution -/

/-- The `n`-th candidate file name: the original name, then
`stem_1`, `stem_2`, … with the original suffix. -/
def candName (file : FileEntry) : Nat → String
  | 0 => file.name
  | n + 1 => pyStem file.name ++ "_" ++ natToDec (n + 1) ++ pySuffix file.name

/-- The `n`-th candidate relative destination path. -/
def candRel (category : String) (file : FileEntry) (n : Nat) : String :=
  category ++ "/" ++ candName file n

/-- The `while dest_path.exists()` loop: try candidates from index `n`
until one is free; `fuel` bounds the search (and is chosen large enough
that the bound is never hit). -/
def resolveGo (fs : List String) (cand : Nat → String) : Nat → Nat → String
  | n, 0 => cand n
  | n, fuel + 1 => if fs.contains (cand n) then resolveGo fs cand (n + 1) fuel else cand n

/-- The resolved relative destination path for a file: the first candidate
path at which no file exists. -/
def resolvePath (fs : List String) (category : String) (file : FileEntry) : String :=
  resolveGo fs (candRel category file) 0 (fs.length + 2)

/-! ## `organize_asset` -/

/-- The per-file outcome, distinguishing the three reported cases. -/
inductive OrganizeResult
  | sysSkip
  | dupSkip (matched : String)
  | moved (rel : String)
deriving DecidableEq, Repr

/-- The outcome of one `organize_asset` call together with the updated
output tree and in-memory manifest. -/
structure OrganizeOut where
  result : OrganizeResult
  fs : List String
  manifest : Manifest
deriving DecidableEq, Repr

/-- The system-file filter at the top of `organize_asset`. -/
def isSystemFile (name : String) : Bool :=
  leadMatch ".".data name.data || name == "README.md" || name == ".gitkeep"

/-- The duplicate scan: the first manifest key whose record carries the
given tagged hash, if any. -/
def findDup (assets : List (String × AssetInfo)) (tagged : String) : Option String :=
  (assets.find? (fun p => p.2.content_hash == tagged)).map Prod.fst

/-- The Asset Record built for a committed move (`asset_info` in the
script): original name, tagged hash, post-move size, guessed MIME type,
category, timestamp, and the optional raster dimensions. -/
def assetInfoFor (env : Env) (file : FileEntry) (rel category : String) : AssetInfo :=
  { original_name := file.name
    content_hash := "sha256:" ++ compute_hash file
    size_bytes := file.content.length
    mime_type := get_mime_type env rel
    category := category
    uploaded_at := env.now
    dimensions := get_image_dimensions env file.content }

/-- `organize_asset`: system-file filter, hash, duplicate check,
categorize, collision resolution, then (unless dry-run) move the file and
insert the Asset Record. -/
def organize_asset (env : Env) (file : FileEntry) (fs : List String)
    (manifest : Manifest) (dryRun : Bool) : OrganizeOut :=
  if isSystemFile file.name then ⟨.sysSkip, fs, manifest⟩
  else
    match findDup manifest.assets ("sha256:" ++ compute_hash file) with
    | some matched => ⟨.dupSkip matched, fs, manifest⟩
    | none =>
        let category := get_category file.name
        let rel := resolvePath fs category file
        if dryRun then ⟨.moved rel, fs, manifest⟩
        else
          ⟨.moved rel, rel :: fs,
           { manifest with
              assets := dictInsert manifest.assets rel (assetInfoFor env file rel category) }⟩

/-! ## The run loop and `main` -/

/-- Insert a file into a name-sorted list (Python compares the `Path`
objects, which for files of one directory is their name strings). -/
def insertByName (f : FileEntry) : List FileEntry → List FileEntry
  | [] => [f]
  | g :: gs => if f.name < g.name then f :: g :: gs else g :: insertByName f gs

/-- Model of `sorted(files)`. -/
def sortFiles : List FileEntry → List FileEntry
  | [] => []
  | f :: fs => insertByName f (sortFiles fs)

/-- The state accumulated by the per-file loop in `main`. -/
structure LoopState where
  fs : List String
  manifest : Manifest
  reports : List (String × OrganizeResult)
  organized : Nat
  skipped : Nat
deriving DecidableEq, Repr

/-- Python's `if result:` on the `Optional[str]` return value: truthy
exactly for a non-empty returned path. -/
def isTruthy : OrganizeResult → Bool
  | .moved rel => !(rel == "")
  | _ => false

/-- The `for file_path in sorted(files):` loop of `main`, threading the
output tree and manifest and counting organized/skipped files. -/
def processFiles (env : Env) (dryRun : Bool) :
    List FileEntry → List String → Manifest → LoopState
  | [], fs, m => ⟨fs, m, [], 0, 0⟩
  | f :: rest, fs, m =>
      let out := organize_asset env f fs m dryRun
      let tail := processFiles env dryRun rest out.fs out.manifest
      ⟨tail.fs, tail.manifest, (f.name, out.result) :: tail.reports,
       (if isTruthy out.result then 1 else 0) + tail.organized,
       (if isTruthy out.result then 0 else 1) + tail.skipped⟩

/-- The state of the input-directory argument. -/
inductive InputDir
  | missing
  | notDir
  | dir (files : List FileEntry)
deriving DecidableEq, Repr

/-- The on-disk manifest file.  Besides being absent or unparseable, a
present file may parse as JSON of shapes the program treats differently:
a non-object value such as a top-level array (`[]`), an object with no
`"assets"` mapping (`{}`), or an object of the manifest-document shape
(`version` and `generated_at` are never read back, so any object carrying
an `"assets"` object behaves as a document). -/
inductive DiskManifest
  | absent
  | corrupt
  | nonObject
  | objectNoAssets
  | stored (m : Manifest)
deriving DecidableEq, Repr

/-- What `json.load` yields when it succeeds: a non-object value, an
object without an `"assets"` mapping, or a manifest-shaped document. -/
inductive LoadedJson
  | nonObject
  | objectNoAssets
  | doc (m : Manifest)
deriving DecidableEq, Repr

/-- `load_manifest`: a fresh document when the file is absent, whatever
JSON value the file parses to when it parses, and a propagated
`json.JSONDecodeError` otherwise. -/
def load_manifest : DiskManifest → Except Unit LoadedJson
  | .absent => .ok (.doc emptyManifest)
  | .corrupt => .error ()
  | .nonObject => .ok .nonObject
  | .objectNoAssets => .ok .objectNoAssets
  | .stored m => .ok (.doc m)

/-- `save_manifest`: stamp `generated_at` and overwrite the file. -/
def save_manifest (env : Env) (m : Manifest) : DiskManifest :=
  .stored { m with generated_at := some env.now }

/-- The observable outcome of one invocation of `main`: the process exit
status, the per-file reports printed before the run ended (normally or by
an uncaught exception), the summary counts, the final output tree, the
final on-disk manifest file, and the final in-memory manifest (a
placeholder `emptyManifest` on the paths where no manifest document is in
memory). -/
structure RunResult where
  exitCode : Nat
  reports : List (String × OrganizeResult)
  organized : Nat
  skipped : Nat
  fs : List String
  diskManifest : DiskManifest
  finalManifest : Manifest
deriving DecidableEq, Repr

/-- `main` after argument parsing: validate the input directory, load the
manifest (an unparseable manifest aborts the process with a non-zero
status), return early on an empty listing, process the name-sorted files,
and save the manifest only when not in dry-run mode and at least one file
was organized.

When the manifest file parses to a non-object JSON value, the first
non-system file's duplicate scan (`manifest.get`, line 155) — or, if every
file is a system file, the required-assets report (line 298) — raises
`AttributeError`, so any run over a non-empty listing dies non-zero after
printing only the leading system-file skips, moving and saving nothing.
When it parses to an object with no `"assets"` mapping, `.get("assets",
{})` falls back to empty, so a dry run (and a run whose files are all
system files) completes with exit zero; a committed run moves its first
non-system file and then dies non-zero on the `KeyError` of the
Asset-Record insert (line 201), leaving that one file relocated but
nothing recorded or saved. -/
def runJob (env : Env) (inp : InputDir) (fs : List String)
    (disk : DiskManifest) (dryRun : Bool) : RunResult :=
  match inp with
  | .missing => ⟨1, [], 0, 0, fs, disk, emptyManifest⟩
  | .notDir => ⟨1, [], 0, 0, fs, disk, emptyManifest⟩
  | .dir files =>
      match load_manifest disk with
      | .error _ => ⟨1, [], 0, 0, fs, disk, emptyManifest⟩
      | .ok .nonObject =>
          if files.isEmpty then ⟨0, [], 0, 0, fs, disk, emptyManifest⟩
          else
            ⟨1, ((sortFiles files).takeWhile (fun f => isSystemFile f.name)).map
                (fun f => (f.name, OrganizeResult.sysSkip)),
             0, ((sortFiles files).takeWhile (fun f => isSystemFile f.name)).length,
             fs, disk, emptyManifest⟩
      | .ok .objectNoAssets =>
          if files.isEmpty then ⟨0, [], 0, 0, fs, disk, emptyManifest⟩
          else if dryRun then
            let st := processFiles env true (sortFiles files) fs emptyManifest
            ⟨0, st.reports, st.organized, st.skipped, fs, disk, emptyManifest⟩
          else
            match (sortFiles files).find? (fun f => !(isSystemFile f.name)) with
            | none =>
                ⟨0, (sortFiles files).map (fun f => (f.name, OrganizeResult.sysSkip)),
                 0, files.length, fs, disk, emptyManifest⟩
            | some f =>
                ⟨1, ((sortFiles files).takeWhile (fun g => isSystemFile g.name)).map
                    (fun g => (g.name, OrganizeResult.sysSkip)) ++
                  [(f.name, OrganizeResult.moved
                    (resolvePath fs (get_category f.name) f))],
                 0, ((sortFiles files).takeWhile (fun g => isSystemFile g.name)).length,
                 resolvePath fs (get_category f.name) f :: fs, disk, emptyManifest⟩
      | .ok (.doc m0) =>
          if files.isEmpty then ⟨0, [], 0, 0, fs, disk, m0⟩
          else
            let st := processFiles env dryRun (sortFiles files) fs m0
            let disk2 := if !dryRun && decide (0 < st.organized) then
                save_manifest env st.manifest
              else disk
            ⟨0, st.reports, st.organized, st.skipped, st.fs, disk2, st.manifest⟩

/-! ## Basic string lemmas -/

theorem str_data_append (a b : String) : (a ++ b).data = a.data ++ b.data := rfl

theorem str_ext {a b : String} (h : a.data = b.data) : a = b := by
  cases a; cases b; exact congrArg String.mk h

theorem str_append_left_cancel {a b c : String} (h : a ++ b = a ++ c) : b = c := by
  apply str_ext
  have h2 := congrArg String.data h
  rw [str_data_append, str_data_append] at h2
  exact List.append_cancel_left h2

/-- `stem ++ suffix` recovers the file name. -/
theorem stem_append_suffix (name : String) : pyStem name ++ pySuffix name = name := by
  apply str_ext
  rw [str_data_append]
  unfold pyStem pySuffix
  cases h : rfindDot name.data with
  | none => simp
  | some i =>
      dsimp only
      by_cases hc : 0 < i ∧ i < name.data.length - 1
      · rw [if_pos hc, if_pos hc]
        exact List.take_append_drop i name.data
      · rw [if_neg hc, if_neg hc]
        exact List.append_nil _

/-! ## Decimal rendering lemmas -/

theorem decDigitsGo_fuel {f1 f2 n : Nat} (h1 : n < f1) (h2 : n < f2) :
    decDigitsGo f1 n = decDigitsGo f2 n := by
  induction f1 generalizing f2 n with
  | zero => omega
  | succ f ih =>
      cases f2 with
      | zero => omega
      | succ g =>
          simp only [decDigitsGo]
          by_cases h : n < 10
          · simp [h]
          · have hd : n / 10 < n := Nat.div_lt_self (by omega) (by omega)
            simp only [h, ite_false]
            rw [@ih g (n / 10) (by omega) (by omega)]

/-- Numeric value of a digit string (base 10). -/
def decVal (cs : List Char) : Nat := cs.foldl (fun a c => a * 10 + (c.toNat - 48)) 0

theorem decVal_append_digit (l : List Char) (c : Char) :
    decVal (l ++ [c]) = decVal l * 10 + (c.toNat - 48) := by
  simp [decVal, List.foldl_append]

theorem digitChar_val : ∀ k, k < 10 → (digitChar k).toNat - 48 = k := by decide

theorem decVal_natToDec (n : Nat) : decVal (natToDec n).data = n := by
  induction n using Nat.strong_induction_on with
  | _ n ih =>
      show decVal (decDigitsGo (n + 1) n) = n
      by_cases h : n < 10
      · simp only [decDigitsGo, h, ite_true]
        have := digitChar_val n h
        simp [decVal]
        omega
      · have hd : n / 10 < n := Nat.div_lt_self (by omega) (by omega)
        simp only [decDigitsGo, h, ite_false]
        rw [decDigitsGo_fuel (show n / 10 < n from hd) (Nat.lt_succ_self _),
          decVal_append_digit]
        have hrt : decVal (decDigitsGo (n / 10 + 1) (n / 10)) = n / 10 := ih (n / 10) hd
        rw [hrt, digitChar_val (n % 10) (Nat.mod_lt _ (by omega))]
        omega

theorem natToDec_inj {m n : Nat} (h : natToDec m = natToDec n) : m = n := by
  have h2 := congrArg (fun s => decVal s.data) h
  simpa [decVal_natToDec] using h2

theorem natToDec_ne_nil (n : Nat) : (natToDec n).data ≠ [] := by
  show decDigitsGo (n + 1) n ≠ []
  by_cases h : n < 10 <;> simp [decDigitsGo, h]

/-! ## Candidate-path lemmas -/

theorem natToDec_length_pos (n : Nat) : 0 < (natToDec n).length := by
  have h := natToDec_ne_nil n
  have h2 : (natToDec n).data.length ≠ 0 := fun h0 => h (List.length_eq_zero.mp h0)
  exact Nat.pos_of_ne_zero h2

theorem candName_data (f : FileEntry) (n : Nat) :
    (candName f (n + 1)).data =
      ((pyStem f.name).data ++ "_".data) ++
        ((natToDec (n + 1)).data ++ (pySuffix f.name).data) := by
  show ((pyStem f.name ++ "_" ++ natToDec (n + 1)) ++ pySuffix f.name).data = _
  rw [str_data_append, str_data_append, str_data_append]
  simp [List.append_assoc]

theorem candName_length_succ (f : FileEntry) (n : Nat) :
    (candName f (n + 1)).length =
      f.name.length + 1 + (natToDec (n + 1)).length := by
  show (pyStem f.name ++ "_" ++ natToDec (n + 1) ++ pySuffix f.name).length = _
  have hlen : (pyStem f.name).length + (pySuffix f.name).length = f.name.length := by
    have h := congrArg String.length (stem_append_suffix f.name)
    rwa [String.length_append] at h
  rw [String.length_append, String.length_append, String.length_append]
  have h1 : ("_" : String).length = 1 := rfl
  omega

theorem candName_inj (f : FileEntry) {i j : Nat}
    (h : candName f i = candName f j) : i = j := by
  cases i with
  | zero =>
      cases j with
      | zero => rfl
      | succ j' =>
          exfalso
          have h2 := congrArg String.length h
          rw [candName_length_succ] at h2
          have h3 := natToDec_length_pos (j' + 1)
          have h0 : (candName f 0).length = f.name.length := rfl
          omega
  | succ i' =>
      cases j with
      | zero =>
          exfalso
          have h2 := congrArg String.length h
          rw [candName_length_succ] at h2
          have h3 := natToDec_length_pos (i' + 1)
          have h0 : (candName f 0).length = f.name.length := rfl
          omega
      | succ j' =>
          have h2 := congrArg String.data h
          rw [candName_data, candName_data] at h2
          have h3 := List.append_cancel_left h2
          have h4 := List.append_cancel_right h3
          have h5 : natToDec (i' + 1) = natToDec (j' + 1) := str_ext h4
          have h6 := natToDec_inj h5
          omega

theorem candRel_inj (cat : String) (f : FileEntry) {i j : Nat}
    (h : candRel cat f i = candRel cat f j) : i = j := by
  unfold candRel at h
  exact candName_inj f (str_append_left_cancel h)

theorem candRel_ne_empty (cat : String) (f : FileEntry) (n : Nat) :
    candRel cat f n ≠ "" := by
  intro h
  have h2 := congrArg String.length h
  unfold candRel at h2
  rw [String.length_append, String.length_append] at h2
  have h3 : ("/" : String).length = 1 := rfl
  have h4 : ("" : String).length = 0 := rfl
  omega

/-! ## Pigeonhole: some candidate path is always free -/

theorem nodup_subset_length {α : Type*} [DecidableEq α] {l1 l2 : List α}
    (h : l1.Nodup) (hs : ∀ x ∈ l1, x ∈ l2) : l1.length ≤ l2.length := by
  have h1 := List.toFinset_card_of_nodup h
  have h2 : l1.toFinset ⊆ l2.toFinset := by
    intro x hx
    rw [List.mem_toFinset] at hx ⊢
    exact hs x hx
  have h3 := Finset.card_le_card h2
  have h4 := List.toFinset_card_le l2
  omega

theorem exists_cand_free (fs : List String) (cat : String) (f : FileEntry) :
    ∃ j, j < fs.length + 2 ∧ candRel cat f j ∉ fs := by
  by_contra hcon
  push_neg at hcon
  have hnd : ((List.range (fs.length + 2)).map (candRel cat f)).Nodup :=
    List.Nodup.map (fun a b hab => candRel_inj cat f hab) (List.nodup_range _)
  have hsub : ∀ x ∈ (List.range (fs.length + 2)).map (candRel cat f), x ∈ fs := by
    intro x hx
    obtain ⟨j, hj, rfl⟩ := List.mem_map.mp hx
    exact hcon j (List.mem_range.mp hj)
  have hle := nodup_subset_length hnd hsub
  have hlen2 : ((List.range (fs.length + 2)).map (candRel cat f)).length =
      fs.length + 2 := by simp
  omega

theorem contains_iff_mem_str {l : List String} {a : String} :
    l.contains a = true ↔ a ∈ l := by
  simp

/-! ## The collision loop finds the first free candidate -/

theorem resolveGo_spec (fs : List String) (cand : Nat → String) :
    ∀ fuel n, (∃ j, j < fuel ∧ cand (n + j) ∉ fs) →
      ∃ j, cand (n + j) ∉ fs ∧ (∀ i < j, cand (n + i) ∈ fs) ∧
        resolveGo fs cand n fuel = cand (n + j) := by
  intro fuel
  induction fuel with
  | zero =>
      rintro n ⟨j, hj, -⟩
      omega
  | succ fuel ih =>
      rintro n ⟨j, hj, hfree⟩
      by_cases hmem : cand n ∈ fs
      · have hcont : fs.contains (cand n) = true := contains_iff_mem_str.mpr hmem
        have hj0 : j ≠ 0 := by
          intro h0
          exact hfree (by simpa [h0] using hmem)
        have hstep : ∃ j', j' < fuel ∧ cand (n + 1 + j') ∉ fs := by
          refine ⟨j - 1, by omega, ?_⟩
          have : n + 1 + (j - 1) = n + j := by omega
          rw [this]
          exact hfree
        obtain ⟨k, hk1, hk2, hk3⟩ := ih (n + 1) hstep
        refine ⟨k + 1, ?_, ?_, ?_⟩
        · have : n + (k + 1) = n + 1 + k := by omega
          rw [this]
          exact hk1
        · intro i hi
          cases i with
          | zero => simpa using hmem
          | succ i' =>
              have := hk2 i' (by omega)
              have heq : n + 1 + i' = n + (i' + 1) := by omega
              rwa [heq] at this
        · show resolveGo fs cand n (fuel + 1) = _
          simp only [resolveGo, hcont, if_true]
          rw [hk3]
          congr 1
          omega
      · have hcont : fs.contains (cand n) = false := by
          rw [Bool.eq_false_iff]
          intro hc
          exact hmem (contains_iff_mem_str.mp hc)
        refine ⟨0, by simpa using hmem, by omega, ?_⟩
        show resolveGo fs cand n (fuel + 1) = _
        simp only [resolveGo, hcont, Bool.false_eq_true, if_false, Nat.add_zero]

theorem resolvePath_spec (fs : List String) (cat : String) (f : FileEntry) :
    ∃ j, resolvePath fs cat f = candRel cat f j ∧ candRel cat f j ∉ fs ∧
      ∀ i < j, candRel cat f i ∈ fs := by
  obtain ⟨j, hj, hfree⟩ := exists_cand_free fs cat f
  obtain ⟨k, h1, h2, h3⟩ :=
    resolveGo_spec fs (candRel cat f) (fs.length + 2) 0 ⟨j, hj, by simpa using hfree⟩
  refine ⟨k, by simpa using h3, by simpa using h1, ?_⟩
  intro i hi
  simpa using h2 i hi

theorem resolvePath_not_mem (fs : List String) (cat : String) (f : FileEntry) :
    resolvePath fs cat f ∉ fs := by
  obtain ⟨j, h1, h2, -⟩ := resolvePath_spec fs cat f
  rw [h1]
  exact h2

theorem resolvePath_ne_empty (fs : List String) (cat : String) (f : FileEntry) :
    resolvePath fs cat f ≠ "" := by
  obtain ⟨j, h1, -, -⟩ := resolvePath_spec fs cat f
  rw [h1]
  exact candRel_ne_empty cat f j

/-! ## Hash lemmas -/

theorem chunks_foldl_update :
    ∀ (fuel : Nat) (l : List Nat) (c : HashCtx), l.length ≤ fuel →
      ((chunksGo 4096 fuel l).foldl ctxUpdate c).fed = c.fed ++ l := by
  intro fuel
  induction fuel with
  | zero =>
      intro l c h
      have : l = [] := List.length_eq_zero.mp (by omega)
      subst this
      simp [chunksGo]
  | succ fuel ih =>
      intro l c h
      cases l with
      | nil => simp [chunksGo]
      | cons a t =>
          simp only [chunksGo, List.foldl_cons]
          rw [ih ((a :: t).drop 4096) (ctxUpdate c ((a :: t).take 4096)) ?_]
          · show (c.fed ++ (a :: t).take 4096) ++ (a :: t).drop 4096 = c.fed ++ a :: t
            rw [List.append_assoc, List.take_append_drop]
          · rw [List.length_drop]
            simp only [List.length_cons] at h ⊢
            omega

/-- Streaming the file through the hash object in 4096-byte chunks gives
exactly the one-shot digest of its bytes. -/
theorem compute_hash_eq (f : FileEntry) : compute_hash f = sha256Hex f.content := by
  unfold compute_hash hexdigest chunksOf
  rw [chunks_foldl_update f.content.length f.content ⟨[]⟩ (le_refl _)]
  rfl

theorem beBytes_lt : ∀ (k n : Nat), ∀ b ∈ beBytes k n, b < 256 := by
  intro k
  induction k with
  | zero => intro n b hb; simp [beBytes] at hb
  | succ k ih =>
      intro n b hb
      simp only [beBytes] at hb
      rcases List.mem_append.mp hb with h | h
      · exact ih _ b h
      · simp only [List.mem_singleton] at h
        subst h
        exact Nat.mod_lt _ (by omega)

theorem sha256_lt (msg : List Nat) : ∀ b ∈ sha256 msg, b < 256 := by
  intro b hb
  unfold sha256 at hb
  obtain ⟨w, -, hw⟩ := List.mem_flatMap.mp hb
  exact beBytes_lt 4 w b hw

/-- Is this character a lowercase hexadecimal digit? -/
def isLowerHexChar (c : Char) : Bool := c.isDigit || ('a' ≤ c && c ≤ 'f')

theorem hexChar_lower : ∀ n, n < 16 → isLowerHexChar (hexChar n) = true := by decide

theorem bytesToHex_lower (bs : List Nat) (hb : ∀ b ∈ bs, b < 256) :
    ∀ c ∈ (bytesToHex bs).data, isLowerHexChar c = true := by
  intro c hc
  have hc2 : c ∈ bs.flatMap (fun b => [hexChar (b / 16), hexChar (b % 16)]) := hc
  obtain ⟨b, hbmem, hcin⟩ := List.mem_flatMap.mp hc2
  have hblt := hb b hbmem
  simp only [List.mem_cons, List.not_mem_nil, or_false] at hcin
  rcases hcin with rfl | rfl
  · exact hexChar_lower _ (by omega)
  · exact hexChar_lower _ (Nat.mod_lt _ (by omega))

/-! ## `dictInsert` and `findDup` lemmas -/

theorem dictInsert_of_fresh {l : List (String × AssetInfo)} {k : String}
    (v : AssetInfo) (h : ∀ e ∈ l, e.1 ≠ k) : dictInsert l k v = l ++ [(k, v)] := by
  unfold dictInsert
  rw [if_neg]
  intro hany
  obtain ⟨e, he, hek⟩ := List.any_eq_true.mp hany
  exact h e he (by simpa using hek)

theorem dictInsert_self_mem (l : List (String × AssetInfo)) (k : String)
    (v : AssetInfo) : (k, v) ∈ dictInsert l k v := by
  unfold dictInsert
  by_cases hany : l.any (fun p => p.1 == k) = true
  · rw [if_pos hany]
    obtain ⟨e, he, hek⟩ := List.any_eq_true.mp hany
    refine List.mem_map.mpr ⟨e, he, ?_⟩
    rw [if_pos hek]
  · rw [if_neg hany]
    exact List.mem_append.mpr (Or.inr (List.mem_singleton.mpr rfl))

theorem find_replaced {t : String} {v : AssetInfo} {k : String} :
    ∀ l : List (String × AssetInfo), (∀ e ∈ l, e.2.content_hash ≠ t) →
      v.content_hash = t → (∃ p ∈ l, p.1 = k) →
      List.find? (fun p => p.2.content_hash == t)
        (l.map (fun p => if p.1 == k then (k, v) else p)) = some (k, v) := by
  intro l
  induction l with
  | nil => rintro - - ⟨p, hp, -⟩; cases hp
  | cons a l ih =>
      rintro hne hv ⟨p, hp, hpk⟩
      simp only [List.map_cons]
      by_cases ha : a.1 = k
      · rw [if_pos (by simpa using ha)]
        exact List.find?_cons_of_pos _ (by simpa using hv)
      · rw [if_neg (by simpa using ha)]
        rw [List.find?_cons_of_neg _ (by simpa using hne a (List.mem_cons_self a l))]
        refine ih (fun e he => hne e (List.mem_cons_of_mem a he)) hv ⟨p, ?_, hpk⟩
        rcases List.mem_cons.mp hp with rfl | h
        · exact absurd hpk ha
        · exact h

theorem findDup_dictInsert {l : List (String × AssetInfo)} {k t : String}
    {v : AssetInfo} (h : ∀ e ∈ l, e.2.content_hash ≠ t)
    (hv : v.content_hash = t) : findDup (dictInsert l k v) t = some k := by
  unfold findDup dictInsert
  by_cases hany : l.any (fun p => p.1 == k) = true
  · rw [if_pos hany]
    obtain ⟨e, he, hek⟩ := List.any_eq_true.mp hany
    rw [find_replaced l h hv ⟨e, he, by simpa using hek⟩]
    rfl
  · rw [if_neg hany]
    rw [List.find?_append]
    rw [List.find?_eq_none.mpr (fun e he hne => h e he (by simpa using hne))]
    rw [Option.none_or]
    rw [List.find?_cons_of_pos _ (by simpa using hv)]
    rfl

theorem findDup_eq_none {l : List (String × AssetInfo)} {t : String}
    (h : ∀ e ∈ l, e.2.content_hash ≠ t) : findDup l t = none := by
  unfold findDup
  rw [List.find?_eq_none.mpr (fun e he hne => h e he (by simpa using hne))]
  rfl

theorem findDup_mem_of_some {l : List (String × AssetInfo)} {t p : String}
    (h : findDup l t = some p) :
    ∃ e ∈ l, e.1 = p ∧ e.2.content_hash = t := by
  unfold findDup at h
  cases hf : List.find? (fun q => q.2.content_hash == t) l with
  | none => rw [hf] at h; cases h
  | some e =>
      rw [hf] at h
      have hmem := List.mem_of_find?_eq_some hf
      have hpred := List.find?_some hf
      refine ⟨e, hmem, ?_, by simpa using hpred⟩
      simpa using h

theorem findDup_isSome_of_mem {l : List (String × AssetInfo)} {t : String}
    (h : ∃ e ∈ l, e.2.content_hash = t) : ∃ p, findDup l t = some p := by
  obtain ⟨e, he, het⟩ := h
  unfold findDup
  cases hf : List.find? (fun q => q.2.content_hash == t) l with
  | none =>
      exact absurd het (by simpa using List.find?_eq_none.mp hf e he)
  | some q => exact ⟨q.1, rfl⟩

theorem findDup_none {l : List (String × AssetInfo)} {t : String}
    (h : findDup l t = none) : ∀ e ∈ l, e.2.content_hash ≠ t := by
  intro e he het
  obtain ⟨p, hp⟩ := findDup_isSome_of_mem ⟨e, he, het⟩
  rw [h] at hp
  cases hp

/-! ## Branch lemmas for `organize_asset` -/

theorem organize_sys (env : Env) (file : FileEntry) (fs : List String)
    (manifest : Manifest) (d : Bool) (h : isSystemFile file.name = true) :
    organize_asset env file fs manifest d = ⟨.sysSkip, fs, manifest⟩ := by
  unfold organize_asset
  rw [if_pos h]

theorem organize_dup (env : Env) (file : FileEntry) (fs : List String)
    (manifest : Manifest) (d : Bool) {p : String}
    (h : isSystemFile file.name = false)
    (hd : findDup manifest.assets ("sha256:" ++ compute_hash file) = some p) :
    organize_asset env file fs manifest d = ⟨.dupSkip p, fs, manifest⟩ := by
  unfold organize_asset
  rw [if_neg (by simp [h]), hd]

theorem organize_fresh_dry (env : Env) (file : FileEntry) (fs : List String)
    (manifest : Manifest)
    (h : isSystemFile file.name = false)
    (hd : findDup manifest.assets ("sha256:" ++ compute_hash file) = none) :
    organize_asset env file fs manifest true =
      ⟨.moved (resolvePath fs (get_category file.name) file), fs, manifest⟩ := by
  unfold organize_asset
  rw [if_neg (by simp [h]), hd]
  rfl

theorem organize_fresh_commit (env : Env) (file : FileEntry) (fs : List String)
    (manifest : Manifest)
    (h : isSystemFile file.name = false)
    (hd : findDup manifest.assets ("sha256:" ++ compute_hash file) = none) :
    organize_asset env file fs manifest false =
      ⟨.moved (resolvePath fs (get_category file.name) file),
       resolvePath fs (get_category file.name) file :: fs,
       { manifest with
          assets := dictInsert manifest.assets
            (resolvePath fs (get_category file.name) file)
            (assetInfoFor env file
              (resolvePath fs (get_category file.name) file)
              (get_category file.name)) }⟩ := by
  unfold organize_asset
  rw [if_neg (by simp [h]), hd]
  rfl

theorem organize_fresh_result (env : Env) (file : FileEntry) (fs : List String)
    (manifest : Manifest) (d : Bool)
    (h : isSystemFile file.name = false)
    (hd : findDup manifest.assets ("sha256:" ++ compute_hash file) = none) :
    (organize_asset env file fs manifest d).result =
      .moved (resolvePath fs (get_category file.name) file) := by
  cases d
  · rw [organize_fresh_commit env file fs manifest h hd]
  · rw [organize_fresh_dry env file fs manifest h hd]

/-- In dry-run mode `organize_asset` never changes the output tree or the
manifest. -/
theorem organize_dry_state (env : Env) (file : FileEntry) (fs : List String)
    (manifest : Manifest) :
    (organize_asset env file fs manifest true).fs = fs ∧
    (organize_asset env file fs manifest true).manifest = manifest := by
  by_cases h : isSystemFile file.name = true
  · rw [organize_sys env file fs manifest true h]
    exact ⟨rfl, rfl⟩
  · rw [Bool.not_eq_true] at h
    cases hd : findDup manifest.assets ("sha256:" ++ compute_hash file) with
    | some p =>
        rw [organize_dup env file fs manifest true h hd]
        exact ⟨rfl, rfl⟩
    | none =>
        rw [organize_fresh_dry env file fs manifest h hd]
        exact ⟨rfl, rfl⟩

/-! ## Concrete environments for the closed instances -/

/-- An environment in which PIL never decodes an image. -/
def env0 : Env := ⟨fun _ => none, fun _ => none, "2025-01-01T00:00:00Z"⟩

/-- An environment in which PIL decodes every byte string as a 3×4
raster image. -/
def env1 : Env := ⟨fun _ => none, fun _ => some (3, 4), "2025-01-01T00:00:00Z"⟩

/-- A manifest record with a prescribed content hash. -/
def cexInfo (h : String) : AssetInfo :=
  ⟨"x", h, 1, "application/octet-stream", "misc", "t", none⟩

/-! ## Claim theorems -/

/-- C5: the categorizer is a pure total function into the fixed ten-label
set, resolved in order: the special substring overrides first (in table
order, first match winning, returning `hero` or `brand` regardless of
extension), then the lowercased-extension table, then the `misc`
fallback. -/
theorem get_category_spec (name : String) :
    get_category name ∈ (["hero", "images", "icons", "video", "audio",
      "documents", "fonts", "design", "brand", "misc"] : List String) ∧
    (containsSub "afromations_flag_pick.gif".data (strLower name).data = true →
      get_category name = "hero") ∧
    (containsSub "afromations_flag_pick.gif".data (strLower name).data = false →
      containsSub "logo".data (strLower name).data = true →
      get_category name = "brand") ∧
    (containsSub "afromations_flag_pick.gif".data (strLower name).data = false →
      containsSub "logo".data (strLower name).data = false →
      containsSub "favicon".data (strLower name).data = true →
      get_category name = "brand") ∧
    ((∀ p ∈ SPECIAL_FILES, containsSub p.1.data (strLower name).data = false) →
      get_category name =
        ((CATEGORY_MAPPINGS.find? (fun p => p.1 == strLower (pySuffix name))).map
          Prod.snd).getD "misc") := by
  refine ⟨?_, ?_, ?_, ?_, ?_⟩
  · unfold get_category
    cases hf : SPECIAL_FILES.find?
        (fun p => containsSub p.1.data (strLower name).data) with
    | some p =>
        simp only [hf]
        have hmem := List.mem_of_find?_eq_some hf
        have hall : ∀ q ∈ SPECIAL_FILES, q.2 ∈ (["hero", "images", "icons",
            "video", "audio", "documents", "fonts", "design", "brand",
            "misc"] : List String) := by decide
        exact hall p hmem
    | none =>
        simp only [hf]
        cases hg : CATEGORY_MAPPINGS.find?
            (fun p => p.1 == strLower (pySuffix name)) with
        | some q =>
            simp only [hg, Option.map_some', Option.getD_some]
            have hmem := List.mem_of_find?_eq_some hg
            have hall : ∀ q ∈ CATEGORY_MAPPINGS, q.2 ∈ (["hero", "images",
                "icons", "video", "audio", "documents", "fonts", "design",
                "brand", "misc"] : List String) := by decide
            exact hall q hmem
        | none => simp [hg]
  · intro h1
    have hfind : SPECIAL_FILES.find?
        (fun p => containsSub p.1.data (strLower name).data) =
        some ("afromations_flag_pick.gif", "hero") := by
      rw [SPECIAL_FILES]
      exact List.find?_cons_of_pos _ (by simpa using h1)
    simp only [get_category, hfind]
  · intro h1 h2
    have hfind : SPECIAL_FILES.find?
        (fun p => containsSub p.1.data (strLower name).data) =
        some ("logo", "brand") := by
      rw [SPECIAL_FILES]
      rw [List.find?_cons_of_neg _ (by simpa using h1)]
      exact List.find?_cons_of_pos _ (by simpa using h2)
    simp only [get_category, hfind]
  · intro h1 h2 h3
    have hfind : SPECIAL_FILES.find?
        (fun p => containsSub p.1.data (strLower name).data) =
        some ("favicon", "brand") := by
      rw [SPECIAL_FILES]
      rw [List.find?_cons_of_neg _ (by simpa using h1)]
      rw [List.find?_cons_of_neg _ (by simpa using h2)]
      exact List.find?_cons_of_pos _ (by simpa using h3)
    simp only [get_category, hfind]
  · intro hall
    have hfind : SPECIAL_FILES.find?
        (fun p => containsSub p.1.data (strLower name).data) = none :=
      List.find?_eq_none.mpr (fun p hp => by simp [hall p hp])
    simp only [get_category, hfind]

/-- C5 witness: the overrides and the extension fallback at concrete
names. -/
theorem get_category_spec_witness :
    get_category "my_logo_dark.png" = "brand" ∧
    get_category "favicon.ico" = "brand" ∧
    get_category "clip.mp4" =
      ((CATEGORY_MAPPINGS.find? (fun p => p.1 == strLower (pySuffix "clip.mp4"))).map
        Prod.snd).getD "misc" :=
  ⟨(get_category_spec "my_logo_dark.png").2.2.1 (by decide) (by decide),
   (get_category_spec "favicon.ico").2.2.2.1 (by decide) (by decide) (by decide),
   (get_category_spec "clip.mp4").2.2.2.2 (by decide)⟩

/-- C9: `compute_hash` streams the file in 4096-byte chunks yet returns
exactly the one-shot lowercase-hexadecimal SHA-256 digest of the file's
full byte content, so the digest depends on the bytes alone — any file
with the same content gets the same digest, whatever its name. -/
theorem compute_hash_spec (f : FileEntry) :
    compute_hash f = sha256Hex f.content ∧
    (∀ c ∈ (compute_hash f).data, isLowerHexChar c = true) ∧
    ∀ g : FileEntry, g.content = f.content → compute_hash g = compute_hash f := by
  refine ⟨compute_hash_eq f, ?_, ?_⟩
  · rw [compute_hash_eq f]
    exact bytesToHex_lower (sha256 f.content) (sha256_lt f.content)
  · intro g hg
    rw [compute_hash_eq f, compute_hash_eq g, hg]

/-- C9 witness: the digest of a concrete file equals the one-shot digest
of its bytes, and a file with the same bytes but another name hashes
identically. -/
theorem compute_hash_spec_witness :
    compute_hash ⟨"a.png", [1, 2]⟩ = sha256Hex [1, 2] ∧
    compute_hash ⟨"b.txt", [1, 2]⟩ = compute_hash ⟨"a.png", [1, 2]⟩ :=
  ⟨(compute_hash_spec ⟨"a.png", [1, 2]⟩).1,
   (compute_hash_spec ⟨"a.png", [1, 2]⟩).2.2 ⟨"b.txt", [1, 2]⟩ rfl⟩

/-- C3: for a non-system, non-duplicate file, `organize_asset` places the
file at the first candidate path at which no file exists, the candidates
being `category/name` and then `category/stem_1.suffix`,
`category/stem_2.suffix`, … in order. -/
theorem organize_collision_spec (env : Env) (file : FileEntry)
    (fs : List String) (manifest : Manifest) (dryRun : Bool)
    (hsys : isSystemFile file.name = false)
    (hdup : findDup manifest.assets ("sha256:" ++ compute_hash file) = none) :
    ∃ j, (organize_asset env file fs manifest dryRun).result =
        .moved (candRel (get_category file.name) file j) ∧
      candRel (get_category file.name) file j ∉ fs ∧
      (∀ i < j, candRel (get_category file.name) file i ∈ fs) := by
  obtain ⟨j, h1, h2, h3⟩ := resolvePath_spec fs (get_category file.name) file
  refine ⟨j, ?_, h2, h3⟩
  rw [organize_fresh_result env file fs manifest dryRun hsys hdup, h1]

/-- C3 witness: a second, distinct-content `icon.svg` arriving while
`icons/icon.svg` already exists is organized as `icons/icon_1.svg`. -/
theorem organize_collision_spec_witness :
    (∃ j, (organize_asset env0 ⟨"icon.svg", [7]⟩ ["icons/icon.svg"]
        emptyManifest false).result =
        .moved (candRel (get_category "icon.svg") ⟨"icon.svg", [7]⟩ j) ∧
      candRel (get_category "icon.svg") ⟨"icon.svg", [7]⟩ j ∉ ["icons/icon.svg"] ∧
      (∀ i < j, candRel (get_category "icon.svg") ⟨"icon.svg", [7]⟩ i ∈
        ["icons/icon.svg"])) ∧
    (organize_asset env0 ⟨"icon.svg", [7]⟩ ["icons/icon.svg"]
        emptyManifest false).result = .moved "icons/icon_1.svg" :=
  ⟨organize_collision_spec env0 ⟨"icon.svg", [7]⟩ ["icons/icon.svg"]
      emptyManifest false (by decide) rfl,
   by decide⟩

/-- C8 (amended): in a committed organize of a non-system, non-duplicate
file, the Asset Record is always inserted, and its optional dimensions
field carries exactly the image extractor's output — present when the
bytes decode as a raster image, simply omitted when extraction fails,
with no category gate and never fatally. -/
theorem organize_dimensions_spec (env : Env) (file : FileEntry)
    (fs : List String) (manifest : Manifest)
    (hsys : isSystemFile file.name = false)
    (hdup : findDup manifest.assets ("sha256:" ++ compute_hash file) = none) :
    ∃ rel, (organize_asset env file fs manifest false).result = .moved rel ∧
      (rel, assetInfoFor env file rel (get_category file.name)) ∈
        (organize_asset env file fs manifest false).manifest.assets ∧
      (assetInfoFor env file rel (get_category file.name)).dimensions =
        get_image_dimensions env file.content := by
  refine ⟨resolvePath fs (get_category file.name) file, ?_, ?_, rfl⟩
  · rw [organize_fresh_commit env file fs manifest hsys hdup]
  · rw [organize_fresh_commit env file fs manifest hsys hdup]
    exact dictInsert_self_mem _ _ _

/-- C8 witness: with an environment in which decoding fails, the record
of a committed organize is still inserted and its dimensions field is
omitted. -/
theorem organize_dimensions_spec_witness :
    ∃ rel, (organize_asset env0 ⟨"a.png", [3]⟩ [] emptyManifest false).result =
        .moved rel ∧
      (rel, assetInfoFor env0 ⟨"a.png", [3]⟩ rel (get_category "a.png")) ∈
        (organize_asset env0 ⟨"a.png", [3]⟩ [] emptyManifest false).manifest.assets ∧
      (assetInfoFor env0 ⟨"a.png", [3]⟩ rel (get_category "a.png")).dimensions =
        get_image_dimensions env0 [3] :=
  organize_dimensions_spec env0 ⟨"a.png", [3]⟩ [] emptyManifest (by decide) rfl

/-- C8 counterexample: the code has no image-like-category gate — a file
whose name puts it in the fallback category `misc` still gets a
dimensions field whenever the bytes decode, refuting "present only when
the assigned category is image-like". -/
theorem organize_dimensions_cex :
    (organize_asset env1 ⟨"data.bin", [0]⟩ [] emptyManifest false).manifest.assets.map
      (fun e => (e.1, e.2.category, e.2.dimensions)) =
      [("misc/data.bin", "misc", some (3, 4))] := by decide

/-- C1 (amended): for a non-system file, `organize_asset` returns a
duplicate skip exactly when some existing manifest entry's `content_hash`
equals the algorithm-tagged SHA-256 fingerprint of the file's bytes; on
such a skip neither the manifest nor the output tree changes; and since
the fingerprint depends only on content, after committing one of two
identical-content files the other is skipped as its duplicate, whatever
its name. -/
theorem organize_duplicate_iff (env : Env) (file : FileEntry)
    (fs : List String) (manifest : Manifest) (dryRun : Bool)
    (hsys : isSystemFile file.name = false) :
    ((∃ p, (organize_asset env file fs manifest dryRun).result = .dupSkip p) ↔
      ∃ e ∈ manifest.assets,
        e.2.content_hash = "sha256:" ++ sha256Hex file.content) ∧
    (∀ p, (organize_asset env file fs manifest dryRun).result = .dupSkip p →
      (organize_asset env file fs manifest dryRun).manifest = manifest ∧
      (organize_asset env file fs manifest dryRun).fs = fs) ∧
    (∀ g : FileEntry, g.content = file.content →
      isSystemFile g.name = false → dryRun = false →
      ∀ rel, (organize_asset env file fs manifest dryRun).result = .moved rel →
        (organize_asset env g (organize_asset env file fs manifest dryRun).fs
            (organize_asset env file fs manifest dryRun).manifest false).result =
          .dupSkip rel) := by
  have htag : "sha256:" ++ compute_hash file = "sha256:" ++ sha256Hex file.content := by
    rw [compute_hash_eq]
  cases hd : findDup manifest.assets ("sha256:" ++ compute_hash file) with
  | some p =>
      rw [organize_dup env file fs manifest dryRun hsys hd]
      refine ⟨?_, fun q hq => ⟨rfl, rfl⟩, ?_⟩
      · constructor
        · intro _
          obtain ⟨e, he, -, het⟩ := findDup_mem_of_some hd
          exact ⟨e, he, by rw [het, htag]⟩
        · intro _
          exact ⟨p, rfl⟩
      · intro g hg hgs hdry rel hrel
        cases hrel
  | none =>
      have hres := organize_fresh_result env file fs manifest dryRun hsys hd
      refine ⟨?_, ?_, ?_⟩
      · constructor
        · intro ⟨p, hp⟩
          rw [hres] at hp
          cases hp
        · intro ⟨e, he, het⟩
          have het2 : e.2.content_hash = "sha256:" ++ compute_hash file := by
            rw [het, htag]
          obtain ⟨q, hq⟩ := findDup_isSome_of_mem ⟨e, he, het2⟩
          rw [hd] at hq
          cases hq
      · intro p hp
        rw [hres] at hp
        cases hp
      · intro g hg hgs hdry rel hrel
        subst hdry
        rw [organize_fresh_commit env file fs manifest hsys hd]
        have hgf : compute_hash g = compute_hash file := by
          rw [compute_hash_eq, compute_hash_eq, hg]
        have hfind : findDup
            (dictInsert manifest.assets
              (resolvePath fs (get_category file.name) file)
              (assetInfoFor env file
                (resolvePath fs (get_category file.name) file)
                (get_category file.name)))
            ("sha256:" ++ compute_hash g) = some
              (resolvePath fs (get_category file.name) file) := by
          rw [hgf]
          exact findDup_dictInsert (findDup_none hd) rfl
        have hrel2 : rel = resolvePath fs (get_category file.name) file := by
          rw [organize_fresh_commit env file fs manifest hsys hd] at hrel
          cases hrel
          rfl
        rw [hrel2]
        rw [organize_dup env g _ _ false hgs hfind]

/-- C1 counterexample: a system file (`README.md`) whose byte content
matches an existing manifest entry's tagged fingerprint is skipped as a
system file, not as a duplicate, so the unrestricted "if and only if"
fails. -/
theorem organize_duplicate_iff_cex :
    (cexInfo ("sha256:" ++ sha256Hex [0])).content_hash =
      "sha256:" ++ sha256Hex (FileEntry.mk "README.md" [0]).content ∧
    (organize_asset env0 ⟨"README.md", [0]⟩ []
        ⟨"1.0", none, [("misc/x", cexInfo ("sha256:" ++ sha256Hex [0]))]⟩
        false).result = .sysSkip :=
  ⟨rfl, rfl⟩

/-- C2 (amended): provided every manifest key names a file that exists in
the output tree (as is the case in every state the organizer itself
produces), a call of `organize_asset` preserves pairwise uniqueness of
`content_hash` values, keeps every existing Asset Record untouched, and
changes the manifest at most by appending one new entry under a fresh
key. -/
theorem organize_manifest_invariant (env : Env) (file : FileEntry)
    (fs : List String) (manifest : Manifest) (dryRun : Bool)
    (hkeys : ∀ e ∈ manifest.assets, e.1 ∈ fs) :
    (List.Pairwise (fun a b => a.2.content_hash ≠ b.2.content_hash)
        manifest.assets →
      List.Pairwise (fun a b => a.2.content_hash ≠ b.2.content_hash)
        (organize_asset env file fs manifest dryRun).manifest.assets) ∧
    (∀ e ∈ manifest.assets,
      e ∈ (organize_asset env file fs manifest dryRun).manifest.assets) ∧
    ((organize_asset env file fs manifest dryRun).manifest.assets =
        manifest.assets ∨
      ∃ k v, (∀ e ∈ manifest.assets, e.1 ≠ k) ∧
        (organize_asset env file fs manifest dryRun).manifest.assets =
          manifest.assets ++ [(k, v)]) := by
  by_cases hsys : isSystemFile file.name = true
  · rw [organize_sys env file fs manifest dryRun hsys]
    exact ⟨fun h => h, fun e he => he, Or.inl rfl⟩
  · rw [Bool.not_eq_true] at hsys
    cases hd : findDup manifest.assets ("sha256:" ++ compute_hash file) with
    | some p =>
        rw [organize_dup env file fs manifest dryRun hsys hd]
        exact ⟨fun h => h, fun e he => he, Or.inl rfl⟩
    | none =>
        cases dryRun
        · rw [organize_fresh_commit env file fs manifest hsys hd]
          have hfreshkey : ∀ e ∈ manifest.assets,
              e.1 ≠ resolvePath fs (get_category file.name) file := by
            intro e he heq
            exact resolvePath_not_mem fs (get_category file.name) file
              (heq ▸ hkeys e he)
          rw [dictInsert_of_fresh _ hfreshkey]
          refine ⟨?_, ?_, Or.inr ⟨_, _, hfreshkey, rfl⟩⟩
          · intro hpw
            rw [List.pairwise_append]
            refine ⟨hpw, List.pairwise_singleton _ _, ?_⟩
            intro a ha b hb
            rw [List.mem_singleton] at hb
            subst hb
            exact findDup_none hd a ha
          · intro e he
            exact List.mem_append.mpr (Or.inl he)
        · rw [organize_fresh_dry env file fs manifest hsys hd]
          exact ⟨fun h => h, fun e he => he, Or.inl rfl⟩

/-- C2 counterexample: when a manifest key names a file that is missing
from the output tree, a committed organize of a distinct-content file
with the same resolved path overwrites the old Asset Record instead of
adding a fresh entry, so the unconditional claim fails. -/
theorem organize_manifest_invariant_cex :
    ("misc/a", cexInfo "stale") ∈
      (Manifest.mk "1.0" none [("misc/a", cexInfo "stale")]).assets ∧
    ("misc/a", cexInfo "stale") ∉
      (organize_asset env0 ⟨"a", [1]⟩ []
        ⟨"1.0", none, [("misc/a", cexInfo "stale")]⟩ false).manifest.assets := by
  constructor
  · exact List.mem_singleton.mpr rfl
  · decide

/-- C1 witness: with an empty manifest, no duplicate skip is possible. -/
theorem organize_duplicate_iff_witness :
    (∃ p, (organize_asset env0 ⟨"a.png", [1]⟩ [] emptyManifest false).result =
      .dupSkip p) ↔
      ∃ e ∈ emptyManifest.assets,
        e.2.content_hash = "sha256:" ++ sha256Hex (FileEntry.mk "a.png" [1]).content :=
  (organize_duplicate_iff env0 ⟨"a.png", [1]⟩ [] emptyManifest false (by decide)).1

/-- C2 witness: organizing into an empty state only appends one fresh
entry. -/
theorem organize_manifest_invariant_witness :
    (organize_asset env0 ⟨"b.png", [2]⟩ [] emptyManifest false).manifest.assets =
      emptyManifest.assets ∨
    ∃ k v, (∀ e ∈ emptyManifest.assets, e.1 ≠ k) ∧
      (organize_asset env0 ⟨"b.png", [2]⟩ [] emptyManifest false).manifest.assets =
        emptyManifest.assets ++ [(k, v)] :=
  (organize_manifest_invariant env0 ⟨"b.png", [2]⟩ [] emptyManifest false
    (fun e he => absurd he (List.not_mem_nil e))).2.2

/-! ## Lemmas about the run loop -/

theorem tagged_ne {a b : String} (h : a ≠ b) :
    ("sha256:" ++ a : String) ≠ "sha256:" ++ b :=
  fun he => h (str_append_left_cancel he)

theorem processFiles_dry_state (env : Env) :
    ∀ (files : List FileEntry) (fs : List String) (m : Manifest),
      (processFiles env true files fs m).fs = fs ∧
      (processFiles env true files fs m).manifest = m ∧
      (processFiles env true files fs m).reports =
        files.map (fun f => (f.name, (organize_asset env f fs m true).result)) := by
  intro files
  induction files with
  | nil => intro fs m; exact ⟨rfl, rfl, rfl⟩
  | cons f rest ih =>
      intro fs m
      obtain ⟨hfs, hm⟩ := organize_dry_state env f fs m
      obtain ⟨h1, h2, h3⟩ := ih fs m
      simp only [processFiles, hfs, hm, List.map_cons]
      exact ⟨h1, h2, by rw [h3]⟩

theorem processFiles_all_dup (env : Env) (dry : Bool) :
    ∀ (files : List FileEntry) (fs : List String) (m : Manifest),
      (∀ f ∈ files, isSystemFile f.name = false ∧
        ∃ e ∈ m.assets, e.2.content_hash = "sha256:" ++ compute_hash f) →
      (processFiles env dry files fs m).fs = fs ∧
      (processFiles env dry files fs m).manifest = m ∧
      (processFiles env dry files fs m).organized = 0 ∧
      (processFiles env dry files fs m).skipped = files.length ∧
      ∀ p ∈ (processFiles env dry files fs m).reports, ∃ q, p.2 = .dupSkip q := by
  intro files
  induction files with
  | nil =>
      intro fs m h
      exact ⟨rfl, rfl, rfl, rfl, fun p hp => absurd hp (List.not_mem_nil p)⟩
  | cons f rest ih =>
      intro fs m h
      obtain ⟨hf1, hf2⟩ := h f (List.mem_cons_self f rest)
      obtain ⟨p, hp⟩ := findDup_isSome_of_mem hf2
      have horg := organize_dup env f fs m dry hf1 hp
      obtain ⟨h1, h2, h3, h4, h5⟩ := ih fs m (fun g hg => h g (List.mem_cons_of_mem f hg))
      simp only [processFiles, horg]
      refine ⟨h1, h2, ?_, ?_, ?_⟩
      · show (if isTruthy (.dupSkip p) then 1 else 0) +
          (processFiles env dry rest fs m).organized = 0
        simp only [isTruthy, if_false, Bool.false_eq_true]
        omega
      · show (if isTruthy (.dupSkip p) then 0 else 1) +
          (processFiles env dry rest fs m).skipped = (f :: rest).length
        simp only [isTruthy, if_false, Bool.false_eq_true, List.length_cons]
        omega
      · intro q hq
        rcases List.mem_cons.mp hq with rfl | hq2
        · exact ⟨p, rfl⟩
        · exact h5 q hq2

theorem processFiles_fresh (env : Env) :
    ∀ (files : List FileEntry) (fs : List String) (m : Manifest),
      (∀ f ∈ files, isSystemFile f.name = false) →
      (∀ f ∈ files, ∀ e ∈ m.assets,
        e.2.content_hash ≠ "sha256:" ++ compute_hash f) →
      List.Pairwise (fun f g => compute_hash f ≠ compute_hash g) files →
      (∀ e ∈ m.assets, e.1 ∈ fs) →
      ∃ new, (processFiles env false files fs m).manifest.assets = m.assets ++ new ∧
        new.map (fun e => e.2.content_hash) =
          files.map (fun f => "sha256:" ++ compute_hash f) ∧
        (processFiles env false files fs m).organized = files.length ∧
        (processFiles env false files fs m).skipped = 0 ∧
        (∀ e ∈ (processFiles env false files fs m).manifest.assets,
          e.1 ∈ (processFiles env false files fs m).fs) := by
  intro files
  induction files with
  | nil =>
      intro fs m h1 h2 h3 hk
      exact ⟨[], by simp [processFiles], by simp, rfl, rfl,
        by simpa [processFiles] using hk⟩
  | cons f rest ih =>
      intro fs m h1 h2 h3 hk
      have hsys := h1 f (List.mem_cons_self f rest)
      have hdup : findDup m.assets ("sha256:" ++ compute_hash f) = none :=
        findDup_eq_none (fun e he => h2 f (List.mem_cons_self f rest) e he)
      have hfreshkey : ∀ e ∈ m.assets,
          e.1 ≠ resolvePath fs (get_category f.name) f := by
        intro e he heq
        exact resolvePath_not_mem fs (get_category f.name) f (heq ▸ hk e he)
      have horg := organize_fresh_commit env f fs m hsys hdup
      rw [dictInsert_of_fresh _ hfreshkey] at horg
      have h1' : ∀ g ∈ rest, isSystemFile g.name = false :=
        fun g hg => h1 g (List.mem_cons_of_mem f hg)
      have hpw := List.pairwise_cons.mp h3
      have h2' : ∀ g ∈ rest,
          ∀ e ∈ m.assets ++ [(resolvePath fs (get_category f.name) f,
            assetInfoFor env f (resolvePath fs (get_category f.name) f)
              (get_category f.name))],
          e.2.content_hash ≠ "sha256:" ++ compute_hash g := by
        intro g hg e he
        rcases List.mem_append.mp he with he2 | he2
        · exact h2 g (List.mem_cons_of_mem f hg) e he2
        · rw [List.mem_singleton] at he2
          subst he2
          exact tagged_ne (hpw.1 g hg)
      have hk' : ∀ e ∈ m.assets ++ [(resolvePath fs (get_category f.name) f,
            assetInfoFor env f (resolvePath fs (get_category f.name) f)
              (get_category f.name))],
          e.1 ∈ resolvePath fs (get_category f.name) f :: fs := by
        intro e he
        rcases List.mem_append.mp he with he2 | he2
        · exact List.mem_cons_of_mem _ (hk e he2)
        · rw [List.mem_singleton] at he2
          subst he2
          exact List.mem_cons_self _ _
      obtain ⟨new, ha, hb, hc, hd', he'⟩ :=
        ih (resolvePath fs (get_category f.name) f :: fs)
          ⟨m.version, m.generated_at,
            m.assets ++ [(resolvePath fs (get_category f.name) f,
              assetInfoFor env f (resolvePath fs (get_category f.name) f)
                (get_category f.name))]⟩
          h1' h2' hpw.2 hk'
      have htruthy : isTruthy (.moved (resolvePath fs (get_category f.name) f)) = true := by
        simp only [isTruthy, Bool.not_eq_true']
        exact beq_eq_false_iff_ne.mpr (resolvePath_ne_empty fs (get_category f.name) f)
      refine ⟨(resolvePath fs (get_category f.name) f,
          assetInfoFor env f (resolvePath fs (get_category f.name) f)
            (get_category f.name)) :: new, ?_, ?_, ?_, ?_, ?_⟩
      · show (processFiles env false (f :: rest) fs m).manifest.assets = _
        simp only [processFiles, horg]
        rw [ha]
        simp [List.append_assoc]
      · simp only [List.map_cons]
        rw [hb]
        rfl
      · show (processFiles env false (f :: rest) fs m).organized = _
        simp only [processFiles, horg, htruthy, if_true, List.length_cons]
        omega
      · show (processFiles env false (f :: rest) fs m).skipped = 0
        simp only [processFiles, horg, htruthy, if_true]
        omega
      · show ∀ e ∈ (processFiles env false (f :: rest) fs m).manifest.assets,
          e.1 ∈ (processFiles env false (f :: rest) fs m).fs
        simp only [processFiles, horg]
        exact he'

/-! ## Sorting lemmas -/

theorem insertByName_perm (f : FileEntry) (l : List FileEntry) :
    (insertByName f l).Perm (f :: l) := by
  induction l with
  | nil => exact List.Perm.refl _
  | cons g gs ih =>
      unfold insertByName
      by_cases h : f.name < g.name
      · rw [if_pos h]
      · rw [if_neg h]
        exact (ih.cons g).trans (List.Perm.swap f g gs)

theorem sortFiles_perm (l : List FileEntry) : (sortFiles l).Perm l := by
  induction l with
  | nil => exact List.Perm.refl _
  | cons f fs ih =>
      exact (insertByName_perm f (sortFiles fs)).trans (ih.cons f)

theorem mem_sortFiles {x : FileEntry} {l : List FileEntry} :
    x ∈ sortFiles l ↔ x ∈ l := (sortFiles_perm l).mem_iff

theorem sortFiles_length (l : List FileEntry) :
    (sortFiles l).length = l.length := (sortFiles_perm l).length_eq

/-! ## Unfolding `runJob` on a valid, non-empty input directory -/

theorem runJob_dir (env : Env) (files : List FileEntry) (fs : List String)
    (disk : DiskManifest) (dry : Bool) (m0 : Manifest)
    (hload : load_manifest disk = .ok (.doc m0)) (hne : files ≠ []) :
    runJob env (.dir files) fs disk dry =
      ⟨0, (processFiles env dry (sortFiles files) fs m0).reports,
       (processFiles env dry (sortFiles files) fs m0).organized,
       (processFiles env dry (sortFiles files) fs m0).skipped,
       (processFiles env dry (sortFiles files) fs m0).fs,
       if !dry && decide (0 < (processFiles env dry (sortFiles files) fs m0).organized)
         then save_manifest env (processFiles env dry (sortFiles files) fs m0).manifest
         else disk,
       (processFiles env dry (sortFiles files) fs m0).manifest⟩ := by
  cases files with
  | nil => exact absurd rfl hne
  | cons f rest =>
      simp only [runJob]
      rw [hload]
      rfl

/-- C4: a dry run over a non-empty input directory with a readable
manifest leaves the output tree and the on-disk manifest untouched and
keeps the loaded manifest as is, while every file is still reported — in
particular each non-system, non-duplicate file with its computed would-be
destination; and for any mode, the manifest file changes only when the
run is not a dry run and organized at least one file. -/
theorem dry_run_no_mutation (env : Env) (files : List FileEntry)
    (fs : List String) (disk : DiskManifest) (m0 : Manifest)
    (hload : load_manifest disk = .ok (.doc m0)) (hne : files ≠ []) :
    (runJob env (.dir files) fs disk true).fs = fs ∧
    (runJob env (.dir files) fs disk true).diskManifest = disk ∧
    (runJob env (.dir files) fs disk true).finalManifest = m0 ∧
    (runJob env (.dir files) fs disk true).reports.length = files.length ∧
    (∀ f ∈ files, isSystemFile f.name = false →
      findDup m0.assets ("sha256:" ++ compute_hash f) = none →
      (f.name, OrganizeResult.moved (resolvePath fs (get_category f.name) f)) ∈
        (runJob env (.dir files) fs disk true).reports) ∧
    (∀ dry, (runJob env (.dir files) fs disk dry).diskManifest ≠ disk →
      dry = false ∧ 0 < (runJob env (.dir files) fs disk dry).organized) := by
  obtain ⟨hfs, hm, hrep⟩ := processFiles_dry_state env (sortFiles files) fs m0
  refine ⟨?_, ?_, ?_, ?_, ?_, ?_⟩
  · rw [runJob_dir env files fs disk true m0 hload hne]
    exact hfs
  · rw [runJob_dir env files fs disk true m0 hload hne]
    simp
  · rw [runJob_dir env files fs disk true m0 hload hne]
    exact hm
  · rw [runJob_dir env files fs disk true m0 hload hne]
    show (processFiles env true (sortFiles files) fs m0).reports.length = _
    rw [hrep, List.length_map, sortFiles_length]
  · intro f hf hsysf hdupf
    rw [runJob_dir env files fs disk true m0 hload hne]
    show _ ∈ (processFiles env true (sortFiles files) fs m0).reports
    rw [hrep]
    refine List.mem_map.mpr ⟨f, mem_sortFiles.mpr hf, ?_⟩
    rw [organize_fresh_dry env f fs m0 hsysf hdupf]
  · intro dry hdne
    rw [runJob_dir env files fs disk dry m0 hload hne] at hdne
    by_cases hcond : (!dry && decide
        (0 < (processFiles env dry (sortFiles files) fs m0).organized)) = true
    · rw [Bool.and_eq_true] at hcond
      obtain ⟨hdry, hdec⟩ := hcond
      rw [Bool.not_eq_true'] at hdry
      refine ⟨hdry, ?_⟩
      rw [runJob_dir env files fs disk dry m0 hload hne]
      exact of_decide_eq_true hdec
    · exfalso
      have hdisk : (runJob env (.dir files) fs disk dry).diskManifest = disk := by
        rw [runJob_dir env files fs disk dry m0 hload hne]
        show (if _ then _ else disk) = disk
        rw [if_neg hcond]
      rw [runJob_dir env files fs disk dry m0 hload hne] at hdisk
      exact hdne hdisk

/-- C4 witness: a concrete dry run changes neither the output tree nor
the manifest file. -/
theorem dry_run_no_mutation_witness :
    (runJob env0 (.dir [⟨"a.png", [1]⟩]) [] .absent true).fs = ([] : List String) ∧
    (runJob env0 (.dir [⟨"a.png", [1]⟩]) [] .absent true).diskManifest = .absent :=
  ⟨(dry_run_no_mutation env0 [⟨"a.png", [1]⟩] [] .absent emptyManifest rfl
      (by decide)).1,
   (dry_run_no_mutation env0 [⟨"a.png", [1]⟩] [] .absent emptyManifest rfl
      (by decide)).2.1⟩

/-- C7: running the organizer twice on the same input files (all regular,
with pairwise distinct digests and hashes fresh to the loaded manifest,
from a state where manifest keys name existing output files) organizes
every file on the first committed run and skips every file of the second
run as a duplicate, so the manifest entry count — and indeed the manifest
file itself — is unchanged by the second run. -/
theorem run_twice_idempotent (env : Env) (files : List FileEntry)
    (fs : List String) (disk : DiskManifest) (m0 : Manifest)
    (hload : load_manifest disk = .ok (.doc m0)) (hne : files ≠ [])
    (hgood : ∀ f ∈ files, isSystemFile f.name = false)
    (hfresh : ∀ f ∈ files, ∀ e ∈ m0.assets,
      e.2.content_hash ≠ "sha256:" ++ compute_hash f)
    (hdist : List.Pairwise (fun f g => compute_hash f ≠ compute_hash g) files)
    (hkeys : ∀ e ∈ m0.assets, e.1 ∈ fs) :
    (runJob env (.dir files) fs disk false).organized = files.length ∧
    (runJob env (.dir files) fs disk false).skipped = 0 ∧
    (runJob env (.dir files) (runJob env (.dir files) fs disk false).fs
        (runJob env (.dir files) fs disk false).diskManifest false).organized = 0 ∧
    (runJob env (.dir files) (runJob env (.dir files) fs disk false).fs
        (runJob env (.dir files) fs disk false).diskManifest false).skipped =
      files.length ∧
    (∀ p ∈ (runJob env (.dir files) (runJob env (.dir files) fs disk false).fs
        (runJob env (.dir files) fs disk false).diskManifest false).reports,
      ∃ q, p.2 = .dupSkip q) ∧
    (runJob env (.dir files) (runJob env (.dir files) fs disk false).fs
        (runJob env (.dir files) fs disk false).diskManifest
        false).finalManifest.assets.length =
      (runJob env (.dir files) fs disk false).finalManifest.assets.length ∧
    (runJob env (.dir files) (runJob env (.dir files) fs disk false).fs
        (runJob env (.dir files) fs disk false).diskManifest false).diskManifest =
      (runJob env (.dir files) fs disk false).diskManifest := by
  have hgood' : ∀ f ∈ sortFiles files, isSystemFile f.name = false :=
    fun f hf => hgood f (mem_sortFiles.mp hf)
  have hfresh' : ∀ f ∈ sortFiles files, ∀ e ∈ m0.assets,
      e.2.content_hash ≠ "sha256:" ++ compute_hash f :=
    fun f hf => hfresh f (mem_sortFiles.mp hf)
  have hdist' : List.Pairwise (fun f g => compute_hash f ≠ compute_hash g)
      (sortFiles files) :=
    ((sortFiles_perm files).pairwise_iff (fun hxy he => hxy he.symm)).mpr hdist
  obtain ⟨new, ha, hb, hc, hd', he'⟩ :=
    processFiles_fresh env (sortFiles files) fs m0 hgood' hfresh' hdist' hkeys
  have horg1 : (processFiles env false (sortFiles files) fs m0).organized =
      files.length := by
    rw [hc, sortFiles_length]
  have hpos : 0 < (processFiles env false (sortFiles files) fs m0).organized := by
    rw [horg1]
    exact List.length_pos.mpr hne
  have hcond : (!false && decide
      (0 < (processFiles env false (sortFiles files) fs m0).organized)) = true := by
    simp [hpos]
  have hR1 : runJob env (.dir files) fs disk false =
      ⟨0, (processFiles env false (sortFiles files) fs m0).reports,
       (processFiles env false (sortFiles files) fs m0).organized,
       (processFiles env false (sortFiles files) fs m0).skipped,
       (processFiles env false (sortFiles files) fs m0).fs,
       save_manifest env (processFiles env false (sortFiles files) fs m0).manifest,
       (processFiles env false (sortFiles files) fs m0).manifest⟩ := by
    rw [runJob_dir env files fs disk false m0 hload hne]
    rw [if_pos hcond]
  have hdup2 : ∀ f ∈ sortFiles files, isSystemFile f.name = false ∧
      ∃ e ∈ (Manifest.mk
          (processFiles env false (sortFiles files) fs m0).manifest.version
          (some env.now)
          (processFiles env false (sortFiles files) fs m0).manifest.assets).assets,
        e.2.content_hash = "sha256:" ++ compute_hash f := by
    intro f hf
    refine ⟨hgood' f hf, ?_⟩
    have hmem : "sha256:" ++ compute_hash f ∈
        new.map (fun e => e.2.content_hash) := by
      rw [hb]
      exact List.mem_map.mpr ⟨f, hf, rfl⟩
    obtain ⟨e, he, hee⟩ := List.mem_map.mp hmem
    refine ⟨e, ?_, hee⟩
    show e ∈ (processFiles env false (sortFiles files) fs m0).manifest.assets
    rw [ha]
    exact List.mem_append.mpr (Or.inr he)
  obtain ⟨g1, g2, g3, g4, g5⟩ := processFiles_all_dup env false (sortFiles files)
    (processFiles env false (sortFiles files) fs m0).fs
    (Manifest.mk (processFiles env false (sortFiles files) fs m0).manifest.version
      (some env.now)
      (processFiles env false (sortFiles files) fs m0).manifest.assets)
    hdup2
  have hR2 : runJob env (.dir files)
      (processFiles env false (sortFiles files) fs m0).fs
      (save_manifest env (processFiles env false (sortFiles files) fs m0).manifest)
      false =
      ⟨0, (processFiles env false (sortFiles files)
            (processFiles env false (sortFiles files) fs m0).fs
            (Manifest.mk
              (processFiles env false (sortFiles files) fs m0).manifest.version
              (some env.now)
              (processFiles env false (sortFiles files) fs m0).manifest.assets)).reports,
       0, files.length,
       (processFiles env false (sortFiles files) fs m0).fs,
       save_manifest env (processFiles env false (sortFiles files) fs m0).manifest,
       Manifest.mk (processFiles env false (sortFiles files) fs m0).manifest.version
         (some env.now)
         (processFiles env false (sortFiles files) fs m0).manifest.assets⟩ := by
    rw [runJob_dir env files
      (processFiles env false (sortFiles files) fs m0).fs
      (save_manifest env (processFiles env false (sortFiles files) fs m0).manifest)
      false
      (Manifest.mk (processFiles env false (sortFiles files) fs m0).manifest.version
        (some env.now)
        (processFiles env false (sortFiles files) fs m0).manifest.assets)
      rfl hne]
    rw [g3, g4, sortFiles_length]
    rw [if_neg (by simp)]
    rw [g1, g2]
  rw [hR1]
  show _ ∧ _ ∧
    (runJob env (.dir files) (processFiles env false (sortFiles files) fs m0).fs
      (save_manifest env (processFiles env false (sortFiles files) fs m0).manifest)
      false).organized = 0 ∧ _
  rw [hR2]
  refine ⟨horg1, ?_, rfl, rfl, g5, ?_, rfl⟩
  · rw [hd']
  · rfl

/-- C7 witness: the double run at a concrete one-file input. -/
theorem run_twice_idempotent_witness :
    (runJob env0 (.dir [⟨"a.png", [1]⟩]) [] .absent false).organized = 1 ∧
    (runJob env0 (.dir [⟨"a.png", [1]⟩])
        (runJob env0 (.dir [⟨"a.png", [1]⟩]) [] .absent false).fs
        (runJob env0 (.dir [⟨"a.png", [1]⟩]) [] .absent false).diskManifest
        false).organized = 0 :=
  ⟨(run_twice_idempotent env0 [⟨"a.png", [1]⟩] [] .absent emptyManifest rfl
      (by decide) (by decide) (by simp [emptyManifest]) (by simp)
      (by simp [emptyManifest])).1,
   (run_twice_idempotent env0 [⟨"a.png", [1]⟩] [] .absent emptyManifest rfl
      (by decide) (by decide) (by simp [emptyManifest]) (by simp)
      (by simp [emptyManifest])).2.2.1⟩

/-! ## Support for C10: state invariants and sortedness -/

theorem organize_keys_inv (env : Env) (f : FileEntry) (fs : List String)
    (m : Manifest) (d : Bool) (hk : ∀ e ∈ m.assets, e.1 ∈ fs) :
    ∀ e ∈ (organize_asset env f fs m d).manifest.assets,
      e.1 ∈ (organize_asset env f fs m d).fs := by
  by_cases hs : isSystemFile f.name = true
  · rw [organize_sys env f fs m d hs]
    exact hk
  · rw [Bool.not_eq_true] at hs
    cases hd : findDup m.assets ("sha256:" ++ compute_hash f) with
    | some p =>
        rw [organize_dup env f fs m d hs hd]
        exact hk
    | none =>
        cases d with
        | true =>
            rw [organize_fresh_dry env f fs m hs hd]
            exact hk
        | false =>
            have hfreshkey : ∀ e ∈ m.assets,
                e.1 ≠ resolvePath fs (get_category f.name) f := by
              intro e he heq
              exact resolvePath_not_mem fs (get_category f.name) f (heq ▸ hk e he)
            have horg := organize_fresh_commit env f fs m hs hd
            rw [dictInsert_of_fresh _ hfreshkey] at horg
            rw [horg]
            intro e he
            rcases List.mem_append.mp he with h2 | h2
            · exact List.mem_cons_of_mem _ (hk e h2)
            · rw [List.mem_singleton] at h2
              subst h2
              exact List.mem_cons_self _ _

theorem organize_hash_mono (env : Env) (f : FileEntry) (fs : List String)
    (m : Manifest) (d : Bool) (hk : ∀ e ∈ m.assets, e.1 ∈ fs) {t : String}
    (h : ∃ e ∈ m.assets, e.2.content_hash = t) :
    ∃ e ∈ (organize_asset env f fs m d).manifest.assets,
      e.2.content_hash = t := by
  by_cases hs : isSystemFile f.name = true
  · rw [organize_sys env f fs m d hs]
    exact h
  · rw [Bool.not_eq_true] at hs
    cases hd : findDup m.assets ("sha256:" ++ compute_hash f) with
    | some p =>
        rw [organize_dup env f fs m d hs hd]
        exact h
    | none =>
        cases d with
        | true =>
            rw [organize_fresh_dry env f fs m hs hd]
            exact h
        | false =>
            have hfreshkey : ∀ e ∈ m.assets,
                e.1 ≠ resolvePath fs (get_category f.name) f := by
              intro e he heq
              exact resolvePath_not_mem fs (get_category f.name) f (heq ▸ hk e he)
            have horg := organize_fresh_commit env f fs m hs hd
            rw [dictInsert_of_fresh _ hfreshkey] at horg
            rw [horg]
            obtain ⟨e, he, het⟩ := h
            exact ⟨e, List.mem_append.mpr (Or.inl he), het⟩

theorem organize_result_dupSkip {env : Env} {f : FileEntry} {fs : List String}
    {m : Manifest} {d : Bool} {q : String}
    (h : (organize_asset env f fs m d).result = .dupSkip q) :
    ∃ e ∈ m.assets, e.1 = q ∧
      e.2.content_hash = "sha256:" ++ compute_hash f := by
  by_cases hs : isSystemFile f.name = true
  · rw [organize_sys env f fs m d hs] at h
    cases h
  · rw [Bool.not_eq_true] at hs
    cases hd : findDup m.assets ("sha256:" ++ compute_hash f) with
    | some p =>
        rw [organize_dup env f fs m d hs hd] at h
        have hpq : p = q := by
          have h2 : OrganizeResult.dupSkip p = .dupSkip q := h
          cases h2
          rfl
        subst hpq
        exact findDup_mem_of_some hd
    | none =>
        rw [organize_fresh_result env f fs m d hs hd] at h
        cases h

/-- A file whose tagged hash is already in the manifest when the
committed loop starts is reported as a duplicate skip. -/
theorem processFiles_dup_report (env : Env) :
    ∀ (files : List FileEntry) (fs : List String) (m : Manifest),
      (∀ e ∈ m.assets, e.1 ∈ fs) →
      ∀ f ∈ files, isSystemFile f.name = false →
      (∃ e ∈ m.assets, e.2.content_hash = "sha256:" ++ compute_hash f) →
      ∃ q, (f.name, OrganizeResult.dupSkip q) ∈
        (processFiles env false files fs m).reports := by
  intro files
  induction files with
  | nil =>
      intro fs m hk f hf
      cases hf
  | cons g rest ih =>
      intro fs m hk f hf hsys hhash
      rcases List.mem_cons.mp hf with rfl | hf2
      · obtain ⟨p, hp⟩ := findDup_isSome_of_mem hhash
        refine ⟨p, ?_⟩
        simp only [processFiles, organize_dup env f fs m false hsys hp]
        exact List.mem_cons_self _ _
      · have hk' := organize_keys_inv env g fs m false hk
        have hh' := organize_hash_mono env g fs m false hk hhash
        obtain ⟨q, hq⟩ := ih (organize_asset env g fs m false).fs
          (organize_asset env g fs m false).manifest hk' f hf2 hsys hh'
        refine ⟨q, ?_⟩
        simp only [processFiles]
        exact List.mem_cons_of_mem _ hq

/-- Once a committed run has processed a file, any later file of equal
content is reported as a duplicate skip, whatever other files surround
them. -/
theorem processFiles_second_dup (env : Env) (f1 f2 : FileEntry)
    (h1 : isSystemFile f1.name = false) (h2 : isSystemFile f2.name = false)
    (hhash : compute_hash f2 = compute_hash f1) :
    ∀ (l1 l2 : List FileEntry) (fs : List String) (m : Manifest),
      (∀ e ∈ m.assets, e.1 ∈ fs) → f2 ∈ l2 →
      ∃ q, (f2.name, OrganizeResult.dupSkip q) ∈
        (processFiles env false (l1 ++ f1 :: l2) fs m).reports := by
  intro l1
  induction l1 with
  | nil =>
      intro l2 fs m hk hf2
      rw [List.nil_append]
      cases hd : findDup m.assets ("sha256:" ++ compute_hash f1) with
      | some p =>
          obtain ⟨e, he, -, het⟩ := findDup_mem_of_some hd
          obtain ⟨q, hq⟩ := processFiles_dup_report env l2 fs m hk f2 hf2 h2
            ⟨e, he, by rw [het, hhash]⟩
          refine ⟨q, ?_⟩
          simp only [processFiles, organize_dup env f1 fs m false h1 hd]
          exact List.mem_cons_of_mem _ hq
      | none =>
          have hfreshkey : ∀ e ∈ m.assets,
              e.1 ≠ resolvePath fs (get_category f1.name) f1 := by
            intro e he heq
            exact resolvePath_not_mem fs (get_category f1.name) f1 (heq ▸ hk e he)
          have horg := organize_fresh_commit env f1 fs m h1 hd
          rw [dictInsert_of_fresh _ hfreshkey] at horg
          have hk' : ∀ e ∈ m.assets ++
              [(resolvePath fs (get_category f1.name) f1,
                assetInfoFor env f1 (resolvePath fs (get_category f1.name) f1)
                  (get_category f1.name))],
              e.1 ∈ resolvePath fs (get_category f1.name) f1 :: fs := by
            intro e he
            rcases List.mem_append.mp he with h3 | h3
            · exact List.mem_cons_of_mem _ (hk e h3)
            · rw [List.mem_singleton] at h3
              subst h3
              exact List.mem_cons_self _ _
          have hh' : ∃ e ∈ m.assets ++
              [(resolvePath fs (get_category f1.name) f1,
                assetInfoFor env f1 (resolvePath fs (get_category f1.name) f1)
                  (get_category f1.name))],
              e.2.content_hash = "sha256:" ++ compute_hash f2 := by
            refine ⟨(resolvePath fs (get_category f1.name) f1,
              assetInfoFor env f1 (resolvePath fs (get_category f1.name) f1)
                (get_category f1.name)),
              List.mem_append.mpr (Or.inr (List.mem_singleton.mpr rfl)), ?_⟩
            rw [hhash]
            rfl
          obtain ⟨q, hq⟩ := processFiles_dup_report env l2
            (resolvePath fs (get_category f1.name) f1 :: fs)
            (Manifest.mk m.version m.generated_at (m.assets ++
              [(resolvePath fs (get_category f1.name) f1,
                assetInfoFor env f1 (resolvePath fs (get_category f1.name) f1)
                  (get_category f1.name))]))
            hk' f2 hf2 h2 hh'
          refine ⟨q, ?_⟩
          simp only [processFiles, horg]
          exact List.mem_cons_of_mem _ hq
  | cons g l1' ih =>
      intro l2 fs m hk hf2
      have hk' := organize_keys_inv env g fs m false hk
      obtain ⟨q, hq⟩ := ih l2 (organize_asset env g fs m false).fs
        (organize_asset env g fs m false).manifest hk' hf2
      refine ⟨q, ?_⟩
      rw [List.cons_append]
      simp only [processFiles]
      exact List.mem_cons_of_mem _ hq

theorem mem_insertByName {x f : FileEntry} {l : List FileEntry} :
    x ∈ insertByName f l ↔ x = f ∨ x ∈ l := by
  rw [(insertByName_perm f l).mem_iff, List.mem_cons]

theorem insertByName_pairwise (f : FileEntry) (l : List FileEntry)
    (h : List.Pairwise (fun a b => ¬ b.name < a.name) l) :
    List.Pairwise (fun a b => ¬ b.name < a.name) (insertByName f l) := by
  induction l with
  | nil => exact List.pairwise_singleton _ _
  | cons g gs ih =>
      unfold insertByName
      rw [List.pairwise_cons] at h
      by_cases hlt : f.name < g.name
      · rw [if_pos hlt, List.pairwise_cons]
        constructor
        · intro b hb
          rcases List.mem_cons.mp hb with rfl | hb2
          · exact lt_asymm hlt
          · intro hbf
            exact (h.1 b hb2) (lt_trans hbf hlt)
        · rw [List.pairwise_cons]
          exact h
      · rw [if_neg hlt, List.pairwise_cons]
        constructor
        · intro b hb
          rcases mem_insertByName.mp hb with rfl | hb2
          · exact hlt
          · exact h.1 b hb2
        · exact ih h.2

theorem sortFiles_pairwise (l : List FileEntry) :
    List.Pairwise (fun a b => ¬ b.name < a.name) (sortFiles l) := by
  induction l with
  | nil => exact List.Pairwise.nil
  | cons f fs ih => exact insertByName_pairwise f (sortFiles fs) ih

/-- In the sorted listing, a file of strictly smaller name splits the
list with any strictly larger file strictly after it. -/
theorem sorted_split (files : List FileEntry) (f1 f2 : FileEntry)
    (h1 : f1 ∈ sortFiles files) (h2 : f2 ∈ sortFiles files)
    (hlt : f1.name < f2.name) :
    ∃ l1 l2, sortFiles files = l1 ++ f1 :: l2 ∧ f2 ∈ l2 := by
  obtain ⟨l1, l2, hsplit⟩ := List.append_of_mem h1
  refine ⟨l1, l2, hsplit, ?_⟩
  have hpw := sortFiles_pairwise files
  rw [hsplit] at hpw h2
  rcases List.mem_append.mp h2 with hA | hB
  · exfalso
    exact (List.pairwise_append.mp hpw).2.2 f2 hA f1 (List.mem_cons_self _ _) hlt
  · rcases List.mem_cons.mp hB with rfl | hC
    · exact absurd hlt (lt_irrefl _)
    · exact hC

/-- C10: in a dry run the duplicate check consults only the loaded
manifest — `organize_asset` returns the would-be path before any
insertion — so in any dry run whose input contains two distinct files
with identical, manifest-fresh byte content, both files are reported as
would-be organized at their computed destinations, every duplicate skip
of the run matches an entry of the loaded manifest (so neither file is
skipped as a duplicate of the other, nor of any same-run file), and the
manifest is neither changed nor saved; the corresponding committed run
skips the later-sorted of the two as a duplicate. -/
theorem dry_run_intra_dup (env : Env) (files : List FileEntry)
    (f1 f2 : FileEntry) (fs : List String) (disk : DiskManifest)
    (m0 : Manifest)
    (hload : load_manifest disk = .ok (.doc m0))
    (h1mem : f1 ∈ files) (h2mem : f2 ∈ files)
    (hname : f1.name < f2.name)
    (h1 : isSystemFile f1.name = false) (h2 : isSystemFile f2.name = false)
    (hc : f1.content = f2.content)
    (hfresh : ∀ e ∈ m0.assets,
      e.2.content_hash ≠ "sha256:" ++ compute_hash f1)
    (hkeys : ∀ e ∈ m0.assets, e.1 ∈ fs) :
    ((f1.name, OrganizeResult.moved (resolvePath fs (get_category f1.name) f1)) ∈
        (runJob env (.dir files) fs disk true).reports ∧
     (f2.name, OrganizeResult.moved (resolvePath fs (get_category f2.name) f2)) ∈
        (runJob env (.dir files) fs disk true).reports ∧
     (∀ n q, (n, OrganizeResult.dupSkip q) ∈
          (runJob env (.dir files) fs disk true).reports →
        ∃ e ∈ m0.assets, e.1 = q) ∧
     (runJob env (.dir files) fs disk true).finalManifest = m0 ∧
     (runJob env (.dir files) fs disk true).diskManifest = disk) ∧
    ∃ q, (f2.name, OrganizeResult.dupSkip q) ∈
      (runJob env (.dir files) fs disk false).reports := by
  have hne : files ≠ [] := by
    intro h
    rw [h] at h1mem
    cases h1mem
  have hhash2 : compute_hash f2 = compute_hash f1 := by
    rw [compute_hash_eq, compute_hash_eq, hc]
  have hfresh2 : ∀ e ∈ m0.assets,
      e.2.content_hash ≠ "sha256:" ++ compute_hash f2 := by
    intro e he
    rw [hhash2]
    exact hfresh e he
  have hd1 := findDup_eq_none hfresh
  have hd2 := findDup_eq_none hfresh2
  obtain ⟨hfs, hm, hrep⟩ := processFiles_dry_state env (sortFiles files) fs m0
  constructor
  · refine ⟨?_, ?_, ?_, ?_, ?_⟩
    · rw [runJob_dir env files fs disk true m0 hload hne]
      show _ ∈ (processFiles env true (sortFiles files) fs m0).reports
      rw [hrep]
      exact List.mem_map.mpr ⟨f1, mem_sortFiles.mpr h1mem,
        by rw [organize_fresh_dry env f1 fs m0 h1 hd1]⟩
    · rw [runJob_dir env files fs disk true m0 hload hne]
      show _ ∈ (processFiles env true (sortFiles files) fs m0).reports
      rw [hrep]
      exact List.mem_map.mpr ⟨f2, mem_sortFiles.mpr h2mem,
        by rw [organize_fresh_dry env f2 fs m0 h2 hd2]⟩
    · intro n q hq
      rw [runJob_dir env files fs disk true m0 hload hne] at hq
      replace hq : (n, OrganizeResult.dupSkip q) ∈
          (processFiles env true (sortFiles files) fs m0).reports := hq
      rw [hrep] at hq
      obtain ⟨g, hg, heq⟩ := List.mem_map.mp hq
      have hres : (organize_asset env g fs m0 true).result =
          .dupSkip q := by
        have h3 := congrArg Prod.snd heq
        simpa using h3
      obtain ⟨e, he, heq2, -⟩ := organize_result_dupSkip hres
      exact ⟨e, he, heq2⟩
    · rw [runJob_dir env files fs disk true m0 hload hne]
      exact hm
    · rw [runJob_dir env files fs disk true m0 hload hne]
      simp
  · rw [runJob_dir env files fs disk false m0 hload hne]
    obtain ⟨l1, l2, hsplit, hf2l2⟩ := sorted_split files f1 f2
      (mem_sortFiles.mpr h1mem) (mem_sortFiles.mpr h2mem) hname
    show ∃ q, _ ∈ (processFiles env false (sortFiles files) fs m0).reports
    rw [hsplit]
    exact processFiles_second_dup env f1 f2 h1 h2 hhash2 l1 l2 fs m0 hkeys hf2l2

/-- C10 witness: two identical-content files under different names,
among a run's input, where the committed run skips the second as a
duplicate of the first. -/
theorem dry_run_intra_dup_witness :
    ∃ q, ("b.png", OrganizeResult.dupSkip q) ∈
      (runJob env0 (.dir [⟨"a.png", [5]⟩, ⟨"b.png", [5]⟩]) [] .absent
        false).reports :=
  (dry_run_intra_dup env0 [⟨"a.png", [5]⟩, ⟨"b.png", [5]⟩]
    ⟨"a.png", [5]⟩ ⟨"b.png", [5]⟩ [] .absent emptyManifest rfl
    (by simp) (by simp) (by rw [String.lt_iff_toList_lt]; decide)
    (by decide) (by decide) rfl (by simp [emptyManifest])
    (by simp [emptyManifest])).2

end AssetOrg
